import Mathlib

/-!
Shallow embedding of the Yonmoque rules engine (`server/game.js`) and the
CPU search module (`server/ai.js`).  JavaScript values that may be loosely
typed (the persisted game state fed to `normalizeState`) are modelled by the
inductive `JVal`; finite JS numbers are modelled as rationals and the
non-finite doubles (`NaN`, `±Infinity`) get their own constructors, since the
only float-specific operation the source performs on them is
`Number.isFinite` together with truthiness tests.  Coordinates in actions are
modelled as integers (the source only ever compares them and indexes guarded
by `inBounds`).
-/

namespace Yon

/-- Piece colors, the two values `'black'` and `'white'` of the source. -/
inductive Color : Type
  | black
  | white
deriving DecidableEq, Repr

/-- String of a color, as used in JS comparisons (`'black'` / `'white'`). -/
def colorStr : Color → String
  | .black => "black"
  | .white => "white"

/-- Model of a loosely typed JavaScript value (game state at rest). -/
inductive JVal : Type
  | null
  | undef
  | bool (b : Bool)
  | num (q : ℚ)
  | nan
  | inf
  | str (s : String)
  | arr (xs : List JVal)
  | obj (fields : List (String × JVal))

/-- JavaScript truthiness of a `JVal` (`Boolean(v)`; `NaN` is falsy,
`±Infinity` is truthy, objects and arrays are truthy). -/
def truthy : JVal → Bool
  | .null => false
  | .undef => false
  | .bool b => b
  | .num q => q ≠ 0
  | .nan => false
  | .inf => true
  | .str s => s ≠ ""
  | .arr _ => true
  | .obj _ => true

/-- Whether `typeof v === 'object'` holds for a truthy `v` (arrays and plain
objects; `null` is also `typeof 'object'` in JS but is falsy and is caught by
the `!state` test first wherever this matters). -/
def isObjLike : JVal → Bool
  | .arr _ => true
  | .obj _ => true
  | _ => false

/-- Property read `v[k]` for a string key: `undefined` unless `v` is an
object literal holding the key.  (Named fields of arrays and primitives read
as `undefined`; the source only reads `board`, `placed`, `ready`, `turn`,
`status`, `winner`, `result`, `lastMove`, `row`, `col`.) -/
def getField : JVal → String → JVal
  | .obj fs, k =>
    match fs.find? (fun p => p.1 == k) with
    | some p => p.2
    | none => .undef
  | _, _ => (.undef)

/-- Array index read `v[i]` for an integer index. -/
def jIndex : JVal → ℤ → JVal
  | .arr xs, i => if 0 ≤ i then xs.getD i.toNat .undef else .undef
  | _, _ => (.undef)

/-- Strict equality test `v === s` against a string literal. -/
def isStr (v : JVal) (s : String) : Bool :=
  match v with
  | .str t => t == s
  | _ => false

/-- Test `v || d` : `v` if truthy, else the default `d`. -/
def jOrDefault (v d : JVal) : JVal := if truthy v then v else d

/-- The value a JS cell may hold after normalization: `'black'`, `'white'`
or `null` (empty). -/
abbrev Cell := Option Color

/-- A board, as a total map from integer coordinates to cell contents.
`normalizeState` only ever produces boards that are `none` out of bounds,
and every read the source performs is guarded by `inBounds`. -/
abbrev BoardZ := ℤ → ℤ → Cell

/-- Board size constant `BOARD_SIZE = 5`. -/
def BOARD_SIZE : ℤ := 5

/-- Piece budget constant `MAX_PIECES = 6`. -/
def MAX_PIECES : ℚ := 6

/-- Bounds check `inBounds(row, col)` of `game.js`. -/
def inBounds (row col : ℤ) : Prop :=
  0 ≤ row ∧ row < BOARD_SIZE ∧ 0 ≤ col ∧ col < BOARD_SIZE

instance (row col : ℤ) : Decidable (inBounds row col) := by
  unfold inBounds; infer_instance

/-- The neutral positions (four corners and the center). -/
def NEUTRAL_POSITIONS : List (ℤ × ℤ) := [(0, 0), (0, 4), (4, 0), (4, 4), (2, 2)]

/-- The black-zone positions. -/
def BLACK_POSITIONS : List (ℤ × ℤ) :=
  [(0, 2), (1, 1), (1, 3), (2, 0), (2, 4), (3, 1), (3, 3), (4, 2)]

/-- Cell classification `getCellType(row, col)`: `'neutral'`, `'black'` or
`'white'` (the source returns `'white'` for every key missing from both
sets, including out-of-bounds keys). -/
def getCellType (row col : ℤ) : String :=
  if (row, col) ∈ NEUTRAL_POSITIONS then "neutral"
  else if (row, col) ∈ BLACK_POSITIONS then "black"
  else "white"

/-- Opponent of a color, `getOpponent`. -/
def getOpponent : Color → Color
  | .black => .white
  | .white => .black

/-- The empty board (`createEmptyBoard`). -/
def createEmptyBoard : BoardZ := fun _ _ => none

/-- A normalized game state: the exact shape `normalizeState` returns.
`board`, `turn` and the `ready` flags are fully canonicalized by the source;
`placed` holds arbitrary finite JS numbers; `status`, `winner`, `result` and
`lastMove` are passed through as loose values (truthy values are kept as-is). -/
structure NState : Type where
  board : BoardZ
  placedBlack : ℚ
  placedWhite : ℚ
  turn : Color
  status : JVal
  readyBlack : Bool
  readyWhite : Bool
  winner : JVal
  result : JVal
  lastMove : JVal

/-- Read `state.placed[color]` of a normalized state. -/
def placedGet (s : NState) : Color → ℚ
  | .black => s.placedBlack
  | .white => s.placedWhite

/-- The waiting state `createWaitingState()`. -/
def createWaitingState : NState where
  board := createEmptyBoard
  placedBlack := 0
  placedWhite := 0
  turn := .black
  status := .str "waiting"
  readyBlack := false
  readyWhite := false
  winner := .null
  result := .null
  lastMove := .null

/-- The fresh playing state `createNewGameState()`. -/
def createNewGameState : NState where
  board := createEmptyBoard
  placedBlack := 0
  placedWhite := 0
  turn := .black
  status := .str "playing"
  readyBlack := true
  readyWhite := true
  winner := .null
  result := .null
  lastMove := .null

/-- Board normalization: the loop of `normalizeState` copies exactly the
in-bounds cells whose value is `'black'` or `'white'` onto an empty board. -/
def normBoard (bv : JVal) : BoardZ := fun r c =>
  if inBounds r c then
    match jIndex bv r with
    | .arr cells =>
      match jIndex (.arr cells) c with
      | .str "black" => some .black
      | .str "white" => some .white
      | _ => none
    | _ => none
  else none

/-- Finite-number normalization `Number.isFinite(x) ? x : 0`. -/
def finNum : JVal → ℚ
  | .num q => q
  | _ => 0

/-- State normalization `normalizeState(state)` of `game.js`. -/
def normalizeState (state : JVal) : NState :=
  if truthy state ∧ isObjLike state then
    let placedJ := jOrDefault (getField state "placed")
      (.obj [("black", .num 0), ("white", .num 0)])
    let readyJ := jOrDefault (getField state "ready")
      (.obj [("black", .bool false), ("white", .bool false)])
    { board := normBoard (getField state "board")
      placedBlack := finNum (getField placedJ "black")
      placedWhite := finNum (getField placedJ "white")
      turn := if isStr (getField state "turn") "white" then .white else .black
      status := jOrDefault (getField state "status") (.str "waiting")
      readyBlack := truthy (getField readyJ "black")
      readyWhite := truthy (getField readyJ "white")
      winner := jOrDefault (getField state "winner") .null
      result := jOrDefault (getField state "result") .null
      lastMove := jOrDefault (getField state "lastMove") .null }
  else createWaitingState

/-- A coordinate object `{row, col}` of an action. -/
structure Coord : Type where
  row : ℤ
  col : ℤ
deriving DecidableEq, Repr

/-- An action `{type, color, from?, to?}`.  `type` and `color` are kept as
raw strings (the source compares them with `===` before trusting them);
missing `from`/`to` objects are `none`. -/
structure Action : Type where
  type : String
  color : String
  fromPos : Option Coord
  toPos : Option Coord
deriving DecidableEq, Repr

/-- Result of `applyAction`: `{ok:false, error}` or `{ok:true, state}`. -/
inductive JResult : Type
  | err (code : String)
  | ok (state : NState)

/-- Single update of one board cell (`board[r][c] = v`). -/
def updCell (b : BoardZ) (r c : ℤ) (v : Cell) : BoardZ := fun r' c' =>
  if r' = r ∧ c' = c then v else b r' c'

/-- Step-move validation `isValidStepMove(board, from, to)`: at most one in
each coordinate, at least one nonzero, destination in bounds. -/
def isValidStepMove (fromP toP : Coord) : Prop :=
  |toP.row - fromP.row| ≤ 1 ∧ |toP.col - fromP.col| ≤ 1 ∧
    0 < |toP.row - fromP.row| + |toP.col - fromP.col| ∧ inBounds toP.row toP.col

instance (fromP toP : Coord) : Decidable (isValidStepMove fromP toP) := by
  unfold isValidStepMove; infer_instance

/-- The path loop of `isValidDiagonalSlide`: for `i = 1 .. distance`, every
visited cell must be in bounds and of the mover's cell type, and every cell
strictly before the destination must be empty.  `i` counts up, `left` counts
the remaining steps down (`left = distance - i + 1` at entry). -/
def slidePathOk (b : BoardZ) (color : Color) (stepRow stepCol : ℤ) :
    ℕ → ℤ → ℤ → Bool
  | 0, _, _ => true
  | left + 1, r, c =>
    if ¬ inBounds r c then false
    else if getCellType r c ≠ colorStr color then false
    else if 0 < left ∧ b r c ≠ none then false
    else slidePathOk b color stepRow stepCol left (r + stepRow) (c + stepCol)

/-- Diagonal-slide validation `isValidDiagonalSlide(board, color, from, to)`. -/
def isValidDiagonalSlide (b : BoardZ) (color : Color) (fromP toP : Coord) : Bool :=
  let dr := toP.row - fromP.row
  let dc := toP.col - fromP.col
  let distance := |dr|
  if distance ≤ 1 ∨ distance ≠ |dc| then false
  else if getCellType fromP.row fromP.col ≠ colorStr color then false
  else
    slidePathOk b color (Int.sign dr) (Int.sign dc) distance.toNat
      (fromP.row + Int.sign dr) (fromP.col + Int.sign dc)

/-- The eight scan directions of `flipSandwiched`, in source order. -/
def directions8 : List (ℤ × ℤ) :=
  [(1, 0), (-1, 0), (0, 1), (0, -1), (1, 1), (1, -1), (-1, 1), (-1, -1)]

/-- The `while` loop of `flipSandwiched` for one direction: collect the
contiguous run of opponent pieces starting at `(r, c)` walking by `(dr, dc)`.
Fuel `10` strictly exceeds the five in-bounds cells any such ray can visit,
so the walk is exactly the source's unbounded loop. -/
def collectRun (b : BoardZ) (opponent : Color) (dr dc : ℤ) :
    ℕ → ℤ → ℤ → List Coord
  | 0, _, _ => []
  | fuel + 1, r, c =>
    if inBounds r c ∧ b r c = some opponent then
      ⟨r, c⟩ :: collectRun b opponent dr dc fuel (r + dr) (c + dc)
    else []

/-- Write the mover's color onto every collected run cell. -/
def flipCells (b : BoardZ) (color : Color) : List Coord → BoardZ
  | [] => b
  | p :: rest => flipCells (updCell b p.row p.col (some color)) color rest

/-- One direction of the `flipSandwiched` loop, acting on the running
(board, flipped-list) pair. -/
def flipStep (color : Color) (origin : Coord) (acc : BoardZ × List Coord)
    (d : ℤ × ℤ) : BoardZ × List Coord :=
  let candidates :=
    collectRun acc.1 (getOpponent color) d.1 d.2 10
      (origin.row + d.1) (origin.col + d.2)
  let stopR := origin.row + d.1 * (candidates.length + 1)
  let stopC := origin.col + d.2 * (candidates.length + 1)
  if candidates ≠ [] ∧ inBounds stopR stopC ∧ acc.1 stopR stopC = some color
  then (flipCells acc.1 color candidates, acc.2 ++ candidates)
  else acc

/-- Flip resolution `flipSandwiched(board, color, origin)`: fold over the
eight directions, mutating the board as the source does, and accumulate the
flipped coordinates in order. -/
def flipSandwiched (b : BoardZ) (color : Color) (origin : Coord) :
    BoardZ × List Coord :=
  directions8.foldl (flipStep color origin) (b, [])

/-- The four line-scan directions of `getMaxLine` / `lineCounts`. -/
def scanDirs : List (ℤ × ℤ) := [(1, 0), (0, 1), (1, 1), (-1, 1)]

/-- Loop indices `0 .. 4` of the board scans. -/
def idxs : List ℤ := [0, 1, 2, 3, 4]

/-- The inner `while` of `getMaxLine` / `lineCounts`: length of the
contiguous same-colored run from `(r, c)` along `(dr, dc)`.  Fuel `10`
strictly exceeds the five in-bounds cells on any such ray. -/
def runLen (b : BoardZ) (color : Color) (dr dc : ℤ) : ℕ → ℤ → ℤ → ℕ
  | 0, _, _ => 0
  | fuel + 1, r, c =>
    if inBounds r c ∧ b r c = some color then
      runLen b color dr dc fuel (r + dr) (c + dc) + 1
    else 0

/-- Whether the cell before `(r, c)` along `(dr, dc)` already holds the same
color (the run-start deduplication test of the scans). -/
def prevSame (b : BoardZ) (color : Color) (r c dr dc : ℤ) : Prop :=
  inBounds (r - dr) (c - dc) ∧ b (r - dr) (c - dc) = some color

instance (b : BoardZ) (color : Color) (r c dr dc : ℤ) :
    Decidable (prevSame b color r c dr dc) := by
  unfold prevSame; infer_instance

/-- Longest-line detection `getMaxLine(board, color)`. -/
def getMaxLine (b : BoardZ) (color : Color) : ℕ :=
  idxs.foldl
    (fun m r =>
      idxs.foldl
        (fun m c =>
          if b r c = some color then
            scanDirs.foldl
              (fun m d =>
                if prevSame b color r c d.1 d.2 then m
                else Nat.max m (runLen b color d.1 d.2 10 r c))
              m
          else m)
        m)
    0

/-- Outcome flag of `evaluateOutcome`. -/
inductive OutcomeR : Type
  | lose
  | win
  | nores
deriving DecidableEq, Repr

/-- Win/loss evaluation `evaluateOutcome(board, color)`. -/
def evaluateOutcome (b : BoardZ) (color : Color) : OutcomeR × ℕ :=
  let maxLine := getMaxLine b color
  if 5 ≤ maxLine then (.lose, maxLine)
  else if 4 ≤ maxLine then (.win, maxLine)
  else (.nores, maxLine)

/-- JS encoding of a coordinate object `{row, col}`. -/
def coordJ (p : Coord) : JVal :=
  .obj [("row", .num p.row), ("col", .num p.col)]

/-- JS encoding of an optional coordinate (the `from`/`to` slots of the
recorded move; `from` stays `null` for a placement). -/
def optCoordJ : Option Coord → JVal
  | none => .null
  | some p => coordJ p

/-- The `lastMove` record `{type, color, from, to, flipped, at}` created at
the end of `applyAction`; `at` is the injected timestamp string. -/
def mkLastMove (type : String) (color : Color) (fromP toP : Option Coord)
    (flipped : List Coord) (now : String) : JVal :=
  .obj [("type", .str type), ("color", .str (colorStr color)),
    ("from", optCoordJ fromP), ("to", optCoordJ toP),
    ("flipped", .arr (flipped.map (fun p => .arr [.num p.row, .num p.col]))),
    ("at", .str now)]

/-- Successor of a finite JS number (`next.placed[color] += 1`).  Defined by
a direct construction on the reduced fraction so that the kernel can
evaluate it; `jsInc_eq` proves it is ordinary rational `+ 1`. -/
def jsInc (q : ℚ) : ℚ :=
  ⟨q.num + q.den, q.den, q.den_nz, by
    have h1 : IsCoprime (q.num : ℤ) (q.den : ℤ) := by
      rw [Int.isCoprime_iff_gcd_eq_one]
      exact q.reduced
    have h2 : IsCoprime (q.num + (q.den : ℤ)) (q.den : ℤ) := by
      simpa using h1.add_mul_left_left 1
    rw [Int.isCoprime_iff_gcd_eq_one] at h2
    simpa [Int.gcd, Nat.Coprime] using h2⟩

/-- Update `state.placed[color]` of a normalized state. -/
def placedSet (s : NState) (color : Color) (v : ℚ) : NState :=
  match color with
  | .black => { s with placedBlack := v }
  | .white => { s with placedWhite := v }

/-- The shared tail of `applyAction`: outcome evaluation, status / winner /
result / turn updates and the `lastMove` record. -/
def commitAction (next : NState) (type : String) (color : Color)
    (fromP toP : Option Coord) (flipped : List Coord) (now : String) : JResult :=
  let outcome := evaluateOutcome next.board color
  let lastMove := mkLastMove type color fromP toP flipped now
  if outcome.1 = .lose then
    .ok { next with
      status := JVal.str "finished"
      winner := JVal.str (colorStr (getOpponent color))
      result := JVal.str "five"
      lastMove := lastMove }
  else if outcome.1 = .win then
    .ok { next with
      status := JVal.str "finished"
      winner := JVal.str (colorStr color)
      result := JVal.str "four"
      lastMove := lastMove }
  else
    .ok { next with turn := getOpponent color, lastMove := lastMove }

/-- The `'place'` branch of `applyAction`. -/
def placeBranch (next : NState) (color : Color) (toP : Option Coord)
    (now : String) : JResult :=
  match toP with
  | none => .err "invalid_target"
  | some toC =>
    if ¬ inBounds toC.row toC.col then .err "invalid_target"
    else if MAX_PIECES ≤ placedGet next color then .err "no_pieces_left"
    else if next.board toC.row toC.col ≠ none then .err "occupied"
    else
      commitAction
        (placedSet { next with board := updCell next.board toC.row toC.col (some color) }
          color (jsInc (placedGet next color)))
        "place" color none (some toC) [] now

/-- The `'move'` branch of `applyAction`. -/
def moveBranch (next : NState) (color : Color) (fromP toP : Option Coord)
    (now : String) : JResult :=
  match fromP, toP with
  | some fromC, some toC =>
    if ¬ inBounds fromC.row fromC.col ∨ ¬ inBounds toC.row toC.col then
      .err "invalid_target"
    else if next.board fromC.row fromC.col ≠ some color then .err "not_your_piece"
    else if next.board toC.row toC.col ≠ none then .err "occupied"
    else if ¬ isValidStepMove fromC toC ∧
        ¬ isValidDiagonalSlide next.board color fromC toC then
      .err "invalid_move"
    else
      let moved := updCell (updCell next.board fromC.row fromC.col none)
        toC.row toC.col (some color)
      let flips := flipSandwiched moved color toC
      commitAction { next with board := flips.1 } "move" color
        (some fromC) (some toC) flips.2 now
  | _, _ => .err "invalid_target"

/-- Body of `applyAction` after normalization.  Once the `not_your_turn`
check has passed, `action.color` equals `colorStr next.turn` exactly, so the
branches use `next.turn` as the typed mover color. -/
def applyActionCore (next : NState) (action : Action) (now : String) : JResult :=
  if ¬ isStr next.status "playing" then .err "game_not_active"
  else if action.color ≠ colorStr next.turn then .err "not_your_turn"
  else if action.color ≠ "black" ∧ action.color ≠ "white" then .err "invalid_color"
  else if action.type = "place" then placeBranch next next.turn action.toPos now
  else if action.type = "move" then
    moveBranch next next.turn action.fromPos action.toPos now
  else .err "invalid_action"

/-- Full `applyAction(state, action)`: normalize the input into a working
copy, then run the checks and updates on the copy.  `now` is the injected
`new Date().toISOString()` timestamp. -/
def applyAction (state : JVal) (action : Action) (now : String) : JResult :=
  applyActionCore (normalizeState state) action now

/-! The CPU module `server/ai.js`.  Wall-clock reads (`Date.now() > deadline`)
are modelled by an oracle `clock : ℕ → Bool` consulted at the `tick`-th read;
the transposition table is threaded explicitly. -/

/-- The eight step directions of `ai.js` (`DIRECTIONS`), in source order. -/
def DIRECTIONS : List (ℤ × ℤ) :=
  [(1, 0), (-1, 0), (0, 1), (0, -1), (1, 1), (1, -1), (-1, 1), (-1, -1)]

/-- The four diagonal directions (`DIAG_DIRECTIONS`), in source order. -/
def DIAG_DIRECTIONS : List (ℤ × ℤ) := [(1, 1), (1, -1), (-1, 1), (-1, -1)]

/-- The `addAction` helper of `listActions`: push unless the key was used. -/
def addAction (acc : List Action × List String) (a : Action) (key : String) :
    List Action × List String :=
  if key ∈ acc.2 then acc else (acc.1 ++ [a], key :: acc.2)

/-- Dedup key of a placement (`p-row-col`). -/
def placeKey (r c : ℤ) : String :=
  "p-" ++ toString r ++ "-" ++ toString c

/-- Dedup key of a movement (`m-row-col-toRow-toCol`). -/
def moveKey (r c tr tc : ℤ) : String :=
  "m-" ++ toString r ++ "-" ++ toString c ++ "-" ++ toString tr ++ "-" ++ toString tc

/-- The diagonal-slide `while` of `listActions`: starting at `step`, walk
outward while in bounds, on own-zone cells and empty, adding a move for each
reached distance `≥ 2`.  Fuel `10` strictly exceeds the five steps any walk
can survive the `inBounds` test for. -/
def slideActions (s : NState) (color : Color) (r c : ℤ) (d : ℤ × ℤ) :
    ℕ → ℕ → List Action × List String → List Action × List String
  | 0, _, acc => acc
  | fuel + 1, step, acc =>
    let toRow := r + d.1 * (step : ℤ)
    let toCol := c + d.2 * (step : ℤ)
    if ¬ inBounds toRow toCol then acc
    else if getCellType toRow toCol ≠ colorStr color then acc
    else if s.board toRow toCol ≠ none then acc
    else
      let acc' :=
        if 2 ≤ step then
          addAction acc ⟨"move", colorStr color, some ⟨r, c⟩, some ⟨toRow, toCol⟩⟩
            (moveKey r c toRow toCol)
        else acc
      slideActions s color r c d fuel (step + 1) acc'

/-- Legal-action enumeration `listActions(state, color)` of `ai.js`. -/
def listActions (s : NState) (color : Color) : List Action :=
  let acc0 : List Action × List String := ([], [])
  let acc1 :=
    if placedGet s color < MAX_PIECES then
      idxs.foldl
        (fun acc r =>
          idxs.foldl
            (fun acc c =>
              if s.board r c = none then
                addAction acc ⟨"place", colorStr color, none, some ⟨r, c⟩⟩ (placeKey r c)
              else acc)
            acc)
        acc0
    else acc0
  let acc2 :=
    idxs.foldl
      (fun acc r =>
        idxs.foldl
          (fun acc c =>
            if s.board r c = some color then
              let accM :=
                DIRECTIONS.foldl
                  (fun acc d =>
                    let toRow := r + d.1
                    let toCol := c + d.2
                    if ¬ inBounds toRow toCol then acc
                    else if s.board toRow toCol ≠ none then acc
                    else
                      addAction acc
                        ⟨"move", colorStr color, some ⟨r, c⟩, some ⟨toRow, toCol⟩⟩
                        (moveKey r c toRow toCol))
                  acc
              if getCellType r c ≠ colorStr color then accM
              else
                DIAG_DIRECTIONS.foldl (fun acc d => slideActions s color r c d 10 1 acc) accM
            else acc)
          acc)
      acc1
  acc2.1

/-- Piece counting `countPieces(board, color)`. -/
def countPieces (b : BoardZ) (color : Color) : ℕ :=
  idxs.foldl
    (fun total r =>
      idxs.foldl (fun total c => if b r c = some color then total + 1 else total) total)
    0

/-- Increment slot `k` of a line-count table. -/
def bumpCount (f : ℕ → ℕ) (k : ℕ) : ℕ → ℕ := fun m => if m = k then f k + 1 else f m

/-- Line counting `lineCounts(board, color)`: for each run start, bump the
count of `min(length, 5)`. -/
def lineCounts (b : BoardZ) (color : Color) : ℕ → ℕ :=
  idxs.foldl
    (fun counts r =>
      idxs.foldl
        (fun counts c =>
          if b r c = some color then
            scanDirs.foldl
              (fun counts d =>
                if prevSame b color r c d.1 d.2 then counts
                else
                  let length := runLen b color d.1 d.2 10 r c
                  if 1 ≤ length then bumpCount counts (min length 5) else counts)
              counts
          else counts)
        counts)
    (fun _ => 0)

/-- The heuristic part of `evaluateState`: line score plus piece score plus
mobility score. -/
def heuristicScore (s : NState) (color : Color) : ℤ :=
  let opponent := getOpponent color
  let myLines := lineCounts s.board color
  let oppLines := lineCounts s.board opponent
  let lineScore : ℤ :=
    (myLines 4 : ℤ) * 8000 + (myLines 3 : ℤ) * 420 + (myLines 2 : ℤ) * 60 +
      (myLines 1 : ℤ) * 10 -
      ((oppLines 4 : ℤ) * 8200 + (oppLines 3 : ℤ) * 440 + (oppLines 2 : ℤ) * 70 +
        (oppLines 1 : ℤ) * 10)
  let pieceScore : ℤ :=
    ((countPieces s.board color : ℤ) - (countPieces s.board opponent : ℤ)) * 5
  let mobilityScore : ℤ :=
    (((listActions s color).length : ℤ) - ((listActions s opponent).length : ℤ)) * 2
  lineScore + pieceScore + mobilityScore

/-- Position evaluation `evaluateState(state, color)`: a finished state with
a winner is `±100000`; otherwise (including a finished state whose `winner`
field is falsy) the heuristic sum. -/
def evaluateState (s : NState) (color : Color) : ℤ :=
  if isStr s.status "finished" then
    if isStr s.winner (colorStr color) then 100000
    else if truthy s.winner then -100000
    else heuristicScore s color
  else heuristicScore s color

/-- Board-cell character of `serializeState`. -/
def cellChar : Cell → String
  | some .black => "b"
  | some .white => "w"
  | none => "_"

/-- Cache-key serialization `serializeState(state)`:
`turn|placed.black|placed.white|rows`.  Finite JS numbers print via the
rational `toString`; like the JS float rendering it never contains `|`, so
the encoding splits unambiguously. -/
def serializeState (s : NState) : String :=
  let rows :=
    String.intercalate "/"
      (idxs.map (fun r => String.join (idxs.map (fun c => cellChar (s.board r c)))))
  colorStr s.turn ++ "|" ++ toString s.placedBlack ++ "|" ++ toString s.placedWhite ++
    "|" ++ rows

/-- JS numeric comparison values of the search: `-Infinity`, finite, or
`+Infinity` (scores produced by `evaluateState` are integers). -/
inductive SVal : Type
  | negInf
  | fin (z : ℤ)
  | posInf
deriving DecidableEq, Repr

/-- Strict `<` on search values. -/
def SVal.lt : SVal → SVal → Bool
  | .negInf, .negInf => false
  | .negInf, _ => true
  | .fin a, .fin b => a < b
  | .fin _, .posInf => true
  | .fin _, .negInf => false
  | .posInf, _ => false

/-- Non-strict `≤` on search values. -/
def SVal.le (a b : SVal) : Bool := ¬ SVal.lt b a

/-- `Math.max` on search values. -/
def SVal.smax (a b : SVal) : SVal := if SVal.lt a b then b else a

/-- `Math.min` on search values. -/
def SVal.smin (a b : SVal) : SVal := if SVal.lt b a then b else a

/-- A transposition-table entry `{score, depth, bestAction}`. -/
structure TEntry : Type where
  score : SVal
  depth : ℕ
  bestAction : Option Action

/-- The transposition table, keyed by the serialized state together with
the remaining depth (the source appends `|d<depth>` to the serialization;
since the serialization never contains the substring `|d`, the pair carries
exactly the same equality). -/
abbrev Table := List ((String × ℕ) × TEntry)

/-- Key lookup (`table.get`). -/
def lookupT (t : Table) (k : String × ℕ) : Option TEntry :=
  (t.find? (fun p => p.1 == k)).map (fun p => p.2)

/-- Key store (`table.set`); the newest binding shadows older ones. -/
def insertT (t : Table) (k : String × ℕ) (e : TEntry) : Table := (k, e) :: t

/-- Result record of one `evaluateAtDepth` call, with the threaded table
and clock tick. -/
structure EvalRes : Type where
  score : SVal
  timedOut : Bool
  bestAction : Option Action
  table : Table
  tick : ℕ

/-- Result of the action loop inside `evaluateAtDepth`. -/
inductive LoopRes : Type
  | timeout (table : Table) (tick : ℕ)
  | done (bestScore : SVal) (bestAction : Option Action) (table : Table) (tick : ℕ)

/-- The table threaded out of an action loop, in either exit mode. -/
def LoopRes.table : LoopRes → Table
  | .timeout t _ => t
  | .done _ _ t _ => t

/-- The `for (const action of actions)` loop of `evaluateAtDepth`:
apply, recurse via `childEval` (the depth-`d` evaluator), propagate
timeouts, track the best score and action, and cut when `alpha ≥ beta`. -/
def evalLoop (childEval : NState → SVal → SVal → Table → ℕ → EvalRes)
    (current : NState) (now : String) (maximizing : Bool) :
    List Action → SVal → Option Action → SVal → SVal → Table → ℕ → LoopRes
  | [], bestScore, bestAction, _, _, table, tick => .done bestScore bestAction table tick
  | action :: rest, bestScore, bestAction, alpha, beta, table, tick =>
    match applyActionCore current action now with
    | .err _ =>
      evalLoop childEval current now maximizing rest bestScore bestAction alpha beta
        table tick
    | .ok next =>
      let child := childEval next alpha beta table tick
      if child.timedOut then .timeout child.table child.tick
      else if maximizing then
        let bestScore' := if SVal.lt bestScore child.score then child.score else bestScore
        let bestAction' := if SVal.lt bestScore child.score then some action else bestAction
        let alpha' := SVal.smax alpha bestScore'
        if SVal.le beta alpha' then .done bestScore' bestAction' child.table child.tick
        else
          evalLoop childEval current now maximizing rest bestScore' bestAction' alpha'
            beta child.table child.tick
      else
        let bestScore' := if SVal.lt child.score bestScore then child.score else bestScore
        let bestAction' := if SVal.lt child.score bestScore then some action else bestAction
        let beta' := SVal.smin beta bestScore'
        if SVal.le beta' alpha then .done bestScore' bestAction' child.table child.tick
        else
          evalLoop childEval current now maximizing rest bestScore' bestAction' alpha
            beta' child.table child.tick

/-- The body of a non-leaf node: enumerate, loop with alpha-beta, store the
result in the table.  `d` is the children's depth (the node itself runs at
depth `d + 1`). -/
def nodeSearch (childEval : NState → SVal → SVal → Table → ℕ → EvalRes)
    (color : Color) (now : String) (d : ℕ) (current : NState) (alpha beta : SVal)
    (table : Table) (tick : ℕ) (key : String × ℕ) : EvalRes :=
  let actions := listActions current current.turn
  if actions = [] then ⟨.fin (evaluateState current color), false, none, table, tick⟩
  else
    let maximizing := decide (current.turn = color)
    let bs0 := if maximizing then SVal.negInf else SVal.posInf
    match evalLoop childEval current now maximizing actions bs0 none alpha beta
      table tick with
    | .timeout t tk => ⟨.fin 0, true, none, t, tk⟩
    | .done bestScore bestAction t tk =>
      ⟨bestScore, false, bestAction, insertT t key ⟨bestScore, d + 1, bestAction⟩, tk⟩

/-- The recursive `evaluateAtDepth(current, depth, alpha, beta)` of
`searchBestMove`, by structural recursion on the remaining depth.  The
deadline test at entry consumes one clock tick. -/
def evalAtDepth (clock : ℕ → Bool) (color : Color) (now : String) :
    (depth : ℕ) → NState → SVal → SVal → Table → ℕ → EvalRes
  | 0, current, _, _, table, tick =>
    if clock tick then
      ⟨.fin (evaluateState current color), true, none, table, tick + 1⟩
    else ⟨.fin (evaluateState current color), false, none, table, tick + 1⟩
  | d + 1, current, alpha, beta, table, tick =>
    if clock tick then
      ⟨.fin (evaluateState current color), true, none, table, tick + 1⟩
    else if isStr current.status "finished" then
      ⟨.fin (evaluateState current color), false, none, table, tick + 1⟩
    else
      let key := (serializeState current, d + 1)
      match lookupT table key with
      | some e =>
        if d + 1 ≤ e.depth then ⟨e.score, false, e.bestAction, table, tick + 1⟩
        else
          nodeSearch (evalAtDepth clock color now d) color now d current alpha beta
            table (tick + 1) key
      | none =>
        nodeSearch (evalAtDepth clock color now d) color now d current alpha beta
          table (tick + 1) key

/-- The iterative-deepening loop of `searchBestMove`: run depths
`1 .. maxDepth`, stop at the first timeout, keep the latest reported best
action. -/
def deepen (clock : ℕ → Bool) (color : Color) (now : String) (state : NState) :
    (remaining : ℕ) → (depth : ℕ) → Table → ℕ → Option Action → Option Action
  | 0, _, _, _, best => best
  | r + 1, depth, table, tick, best =>
    let res := evalAtDepth clock color now depth state .negInf .posInf table tick
    if res.timedOut then best
    else
      deepen clock color now state r (depth + 1) res.table res.tick
        (match res.bestAction with
          | some a => some a
          | none => best)

/-- Best-move search `searchBestMove(state, color, options)` of `ai.js`.
`optMaxDepth` is `options.maxDepth` (`0` models a falsy option, defaulted to
`4`); the time budget is abstracted by the `clock` oracle. -/
def searchBestMove (clock : ℕ → Bool) (state : NState) (color : Color)
    (optMaxDepth : ℕ) (now : String) : Option Action :=
  let maxDepth := if optMaxDepth = 0 then 4 else optMaxDepth
  match deepen clock color now state maxDepth 1 [] 0 none with
  | some best => some best
  | none => (listActions state color).head?

/-! Specification-side definitions.  These state, in the vocabulary of the
specification, what the validators / capture resolver / heuristic compute;
the claims relate them to the source-translated functions above. -/

/-- Spec wording of a step move: Chebyshev distance exactly one.  (The
in-bounds requirement on the destination is a hypothesis of the claims
using this predicate.) -/
def specStepMove (fromP toP : Coord) : Prop :=
  max |toP.row - fromP.row| |toP.col - fromP.col| = 1

instance (fromP toP : Coord) : Decidable (specStepMove fromP toP) := by
  unfold specStepMove
  infer_instance

/-- Spec wording of a diagonal slide: origin and destination differ by an
equal nonzero row/col delta along one diagonal with distance `k ≥ 2`; the
origin, every intermediate cell and the destination all lie in the mover's
own zone; every intermediate cell is empty. -/
def specDiagonalSlide (b : BoardZ) (c : Color) (fromP toP : Coord) : Prop :=
  ∃ (k : ℕ) (dr dc : ℤ),
    2 ≤ k ∧ (dr = 1 ∨ dr = -1) ∧ (dc = 1 ∨ dc = -1) ∧
    toP.row = fromP.row + k * dr ∧ toP.col = fromP.col + k * dc ∧
    getCellType fromP.row fromP.col = colorStr c ∧
    (∀ i : ℕ, 1 ≤ i → i ≤ k →
      getCellType (fromP.row + i * dr) (fromP.col + i * dc) = colorStr c) ∧
    (∀ i : ℕ, 1 ≤ i → i < k →
      b (fromP.row + i * dr) (fromP.col + i * dc) = none)

/-- The contiguous run of opponent pieces adjacent to `origin` in direction
`d` (on a fixed board). -/
def runOf (b : BoardZ) (c : Color) (origin : Coord) (d : ℤ × ℤ) : List Coord :=
  collectRun b (getOpponent c) d.1 d.2 10 (origin.row + d.1) (origin.col + d.2)

/-- The cells flipped in direction `d`, per the capture rule: the adjacent
opponent run, provided it is non-empty and the next cell beyond it is in
bounds and holds the mover's color — all read on the post-move, pre-flip
board `b`. -/
def dirFlips (b : BoardZ) (c : Color) (origin : Coord) (d : ℤ × ℤ) : List Coord :=
  let cand := runOf b c origin d
  let stopR := origin.row + d.1 * (cand.length + 1)
  let stopC := origin.col + d.2 * (cand.length + 1)
  if cand ≠ [] ∧ inBounds stopR stopC ∧ b stopR stopC = some c then cand else []

/-- All cells flipped by a move landing on `origin`: the eight directions
resolved independently against the same pre-flip board. -/
def flipsSpec (b : BoardZ) (c : Color) (origin : Coord) : List Coord :=
  directions8.flatMap (dirFlips b c origin)

/-- Overlay of a flip list on a board: flipped cells become the mover's
color, everything else is untouched. -/
def overlayFlips (b : BoardZ) (c : Color) (fl : List Coord) : BoardZ :=
  fun r col => if (⟨r, col⟩ : Coord) ∈ fl then some c else b r col

/-- The post-move, pre-flip board: the source cell vacated, the mover's
piece on the destination. -/
def movedBoard (b : BoardZ) (c : Color) (f t : Coord) : BoardZ :=
  updCell (updCell b f.row f.col none) t.row t.col (some c)

/-- All 25 board cells in scan order. -/
def allCells : List (ℤ × ℤ) := idxs.flatMap (fun r => idxs.map (fun c => (r, c)))

/-- All (cell, scan-direction) pairs in scan order. -/
def allCellDirs : List ((ℤ × ℤ) × (ℤ × ℤ)) :=
  allCells.flatMap (fun p => scanDirs.map (fun d => (p, d)))

/-- Whether `p = (cell, dir)` starts a maximal same-colored run: the cell
holds the color and the preceding cell along the axis does not. -/
def runStartsAt (b : BoardZ) (color : Color) (p : (ℤ × ℤ) × (ℤ × ℤ)) : Prop :=
  b p.1.1 p.1.2 = some color ∧ ¬ prevSame b color p.1.1 p.1.2 p.2.1 p.2.2

instance (b : BoardZ) (color : Color) (p : (ℤ × ℤ) × (ℤ × ℤ)) :
    Decidable (runStartsAt b color p) := by
  unfold runStartsAt; infer_instance

/-- Number of maximal runs of the color with length exactly `k` (counting a
run once per axis direction, as the heuristic does). -/
def specRunCount (b : BoardZ) (color : Color) (k : ℕ) : ℕ :=
  allCellDirs.countP
    (fun pd => decide (runStartsAt b color pd ∧
      runLen b color pd.2.1 pd.2.2 10 pd.1.1 pd.1.2 = k))

/-- Number of on-board pieces of the color. -/
def specPieces (b : BoardZ) (color : Color) : ℕ :=
  allCells.countP (fun p => decide (b p.1 p.2 = some color))

/-- Upper bound on the depth components of the keys of a transposition
table. -/
def keysLE (t : Table) (m : ℕ) : Prop := ∀ p ∈ t, p.1.2 ≤ m

/-- One step of replaying an action sequence, keeping only accepted
results: a rejected action leaves the state as it was. -/
def stepAccepted (s : NState) (an : Action × String) : NState :=
  match applyActionCore s an.1 an.2 with
  | .ok s' => s'
  | .err _ => s

/-- Replay a sequence of (action, timestamp) pairs from a fresh game. -/
def runActions (acts : List (Action × String)) : NState :=
  acts.foldl stepAccepted createNewGameState

/-! Heap model for the mutation claim.  JavaScript mutates exactly two
objects reachable from a state record: the board array and the `placed`
record (all other updates assign fields of the freshly allocated working
copy).  The heap stores board and placed objects at integer references;
a state record holds references for those two and plain values for the
fields the source only ever reads or replaces. -/

/-- A heap of board objects and placed-count objects, with a bump
allocator. -/
structure Heap : Type where
  boards : ℕ → BoardZ
  placeds : ℕ → ℚ × ℚ
  fresh : ℕ

/-- Reference update. -/
def updRef {α : Type} (f : ℕ → α) (i : ℕ) (v : α) : ℕ → α :=
  fun j => if j = i then v else f j

/-- A state record in the heap model: references for the two mutable
children, plain values elsewhere. -/
structure RState : Type where
  boardRef : ℕ
  placedRef : ℕ
  turn : Color
  status : JVal
  readyBlack : Bool
  readyWhite : Bool
  winner : JVal
  result : JVal
  lastMove : JVal

/-- Heap-model `normalizeState` on a proper state record: allocate a fresh
board object holding a copy of the in-bounds cells and a fresh placed
object holding a copy of the counts (the field normalizations are identities
on the typed fields and the `||` defaults on the loose ones). -/
def normalizeStateHeap (h : Heap) (s : RState) : Heap × RState :=
  let bv := h.boards s.boardRef
  let pv := h.placeds s.placedRef
  let bRef := h.fresh
  let pRef := h.fresh + 1
  (⟨updRef h.boards bRef (fun r c => if inBounds r c then bv r c else none),
    updRef h.placeds pRef pv, h.fresh + 2⟩,
    { boardRef := bRef
      placedRef := pRef
      turn := s.turn
      status := jOrDefault s.status (.str "waiting")
      readyBlack := s.readyBlack
      readyWhite := s.readyWhite
      winner := jOrDefault s.winner .null
      result := jOrDefault s.result .null
      lastMove := jOrDefault s.lastMove .null })

/-- Result shape of the heap-model `applyAction`. -/
inductive HResult : Type
  | err (code : String)
  | ok (state : RState)

/-- Read the placed count of a color from a placed object. -/
def placedOf (pv : ℚ × ℚ) : Color → ℚ
  | .black => pv.1
  | .white => pv.2

/-- Write the placed count of a color in a placed object. -/
def placedPut (pv : ℚ × ℚ) : Color → ℚ → ℚ × ℚ
  | .black, v => (v, pv.2)
  | .white, v => (pv.1, v)

/-- Heap-model tail of `applyAction`: outcome evaluation and the field
updates on the working copy (plain-value fields; no heap writes). -/
def commitHeap (h : Heap) (next : RState) (ty : String) (c : Color)
    (f t : Option Coord) (fl : List Coord) (now : String) : Heap × HResult :=
  let outcome := evaluateOutcome (h.boards next.boardRef) c
  let lastMove := mkLastMove ty c f t fl now
  if outcome.1 = .lose then
    (h, .ok { next with
      status := JVal.str "finished"
      winner := JVal.str (colorStr (getOpponent c))
      result := JVal.str "five"
      lastMove := lastMove })
  else if outcome.1 = .win then
    (h, .ok { next with
      status := JVal.str "finished"
      winner := JVal.str (colorStr c)
      result := JVal.str "four"
      lastMove := lastMove })
  else (h, .ok { next with turn := getOpponent c, lastMove := lastMove })

/-- The checks and writes of the heap-model `applyAction`, performed on the
already-normalized working copy `next` in heap `h1`. -/
def applyActionHeapBody (h1 : Heap) (next : RState) (a : Action) (now : String) :
    Heap × HResult :=
  if ¬ isStr next.status "playing" then (h1, .err "game_not_active")
  else if a.color ≠ colorStr next.turn then (h1, .err "not_your_turn")
  else if a.color ≠ "black" ∧ a.color ≠ "white" then (h1, .err "invalid_color")
  else if a.type = "place" then
    match a.toPos with
    | none => (h1, .err "invalid_target")
    | some t =>
      if ¬ inBounds t.row t.col then (h1, .err "invalid_target")
      else
        let board := h1.boards next.boardRef
        let pv := h1.placeds next.placedRef
        if MAX_PIECES ≤ placedOf pv next.turn then (h1, .err "no_pieces_left")
        else if board t.row t.col ≠ none then (h1, .err "occupied")
        else
          let h2 := { h1 with
            boards := updRef h1.boards next.boardRef
              (updCell board t.row t.col (some next.turn))
            placeds := updRef h1.placeds next.placedRef
              (placedPut pv next.turn (jsInc (placedOf pv next.turn))) }
          commitHeap h2 next "place" next.turn none (some t) [] now
  else if a.type = "move" then
    match a.fromPos, a.toPos with
    | some f, some t =>
      if ¬ inBounds f.row f.col ∨ ¬ inBounds t.row t.col then
        (h1, .err "invalid_target")
      else
        let board := h1.boards next.boardRef
        if board f.row f.col ≠ some next.turn then (h1, .err "not_your_piece")
        else if board t.row t.col ≠ none then (h1, .err "occupied")
        else if ¬ isValidStepMove f t ∧
            ¬ isValidDiagonalSlide board next.turn f t then
          (h1, .err "invalid_move")
        else
          let moved := updCell (updCell board f.row f.col none) t.row t.col
            (some next.turn)
          let h2 := { h1 with boards := updRef h1.boards next.boardRef moved }
          let flips := flipSandwiched (h2.boards next.boardRef) next.turn t
          let h3 := { h2 with boards := updRef h2.boards next.boardRef flips.1 }
          commitHeap h3 next "move" next.turn (some f) (some t) flips.2 now
    | _, _ => (h1, .err "invalid_target")
  else (h1, .err "invalid_action")

/-- Heap-model `applyAction(state, action)`: normalize into a freshly
allocated working copy, then run every check and every write against the
copy's references. -/
def applyActionHeap (h0 : Heap) (s : RState) (a : Action) (now : String) :
    Heap × HResult :=
  applyActionHeapBody (normalizeStateHeap h0 s).1 (normalizeStateHeap h0 s).2 a now

/-! Concrete inputs used to instantiate the theorems. -/

/-- A clock oracle whose deadline is never exceeded. -/
def clk0 : ℕ → Bool := fun _ => false

/-- Extract the success state of a result, with a default for errors. -/
def JResult.stateD : JResult → NState → NState
  | .ok s, _ => s
  | .err _, d => d

/-- Whether a result is a success. -/
def JResult.isOk : JResult → Bool
  | .ok _ => true
  | .err _ => false

/-- Board with three black pieces on the main diagonal. -/
def diag3Board : BoardZ := fun r c =>
  if (r = 0 ∧ c = 0) ∨ (r = 1 ∧ c = 1) ∨ (r = 2 ∧ c = 2) then some .black else none

/-- Playing state with the three-in-a-diagonal board. -/
def diag3State : NState := { createNewGameState with board := diag3Board, placedBlack := 3 }

/-- Black placement at `(3,3)` (completing four in a diagonal). -/
def placeD3 : Action := ⟨"place", "black", none, some ⟨3, 3⟩⟩

/-- Board for a capture: black `(2,0)`, white `(2,2)`, black `(2,3)`. -/
def flipBoard : BoardZ := fun r c =>
  if r = 2 ∧ c = 0 then some .black
  else if r = 2 ∧ c = 2 then some .white
  else if r = 2 ∧ c = 3 then some .black
  else none

/-- Playing state with the capture board. -/
def flipState : NState :=
  { createNewGameState with board := flipBoard, placedBlack := 2, placedWhite := 1 }

/-- Black move `(2,0) → (2,1)` (sandwiching the white piece at `(2,2)`). -/
def moveFlip : Action := ⟨"move", "black", some ⟨2, 0⟩, some ⟨2, 1⟩⟩

/-- Playing state with a lone black piece on the black-zone cell `(0,2)`. -/
def slideState : NState := { createNewGameState with
  board := fun r c => if r = 0 ∧ c = 2 then some .black else none
  placedBlack := 1 }

/-- Playing state where black has spent its six pieces and white occupies
`(0,0)`. -/
def budget6State : NState := { createNewGameState with
  placedBlack := 6
  board := fun r c => if r = 0 ∧ c = 0 then some .white else none }

/-- Black placement at `(0,0)` (an occupied cell). -/
def placeOcc : Action := ⟨"place", "black", none, some ⟨0, 0⟩⟩

/-- Playing state with one black piece at `(0,0)` and both piece budgets
exhausted: white has no legal action at all, black has three moves. -/
def cornerState : NState := { createNewGameState with
  board := fun r c => if r = 0 ∧ c = 0 then some .black else none
  placedBlack := 6
  placedWhite := 6 }

/-- A loose persisted state with a junk `status` and a placed count of 7. -/
def badInput : JVal :=
  .obj [("status", .str "bogus"), ("placed", .obj [("black", .num 7)])]

/-- A two-object heap whose allocator is past both references. -/
def heapEx : Heap := ⟨fun _ => flipBoard, fun _ => (2, 1), 1⟩

/-- A state record referencing the heap objects at `0`. -/
def rstEx : RState := ⟨0, 0, .black, .str "playing", true, true, .null, .null, .null⟩

/-! Theorems. -/

/-- The JS increment is rational increment. -/
theorem jsInc_eq (q : ℚ) : jsInc q = q + 1 := by
  have hd : ((q.den : ℚ)) ≠ 0 := by
    exact_mod_cast q.den_nz
  rw [jsInc, Rat.mk'_eq_divInt, Rat.divInt_eq_div]
  push_cast
  rw [add_div, div_self hd, Rat.num_div_den]

/-- The commit tail always succeeds. -/
theorem commitAction_isOk (n : NState) (ty : String) (c : Color)
    (f t : Option Coord) (fl : List Coord) (now : String) :
    ∃ s', commitAction n ty c f t fl now = .ok s' := by
  simp only [commitAction]
  split_ifs <;> exact ⟨_, rfl⟩

/-- Distinct error codes give distinct results. -/
theorem err_ne_err {a b : String} (h : a ≠ b) : JResult.err a ≠ JResult.err b := by
  intro he
  injection he with h'
  exact h h'

/-- A success is never an error. -/
theorem ok_ne_err {s : NState} {b : String} : JResult.ok s ≠ JResult.err b := by
  intro he
  exact JResult.noConfusion he

/-- The commit tail never fails. -/
theorem commitAction_ne_err (n : NState) (ty : String) (c : Color)
    (f t : Option Coord) (fl : List Coord) (now : String) (e : String) :
    commitAction n ty c f t fl now ≠ .err e := by
  obtain ⟨s', hs⟩ := commitAction_isOk n ty c f t fl now
  rw [hs]
  exact ok_ne_err

/-- The placement branch can only fail with its own three codes. -/
theorem placeBranch_not_invalid_color (n : NState) (c : Color) (to? : Option Coord)
    (now : String) : placeBranch n c to? now ≠ .err "invalid_color" := by
  match to? with
  | none =>
    apply err_ne_err
    decide
  | some t =>
    simp only [placeBranch]
    split_ifs
    all_goals try (apply err_ne_err; decide)
    apply commitAction_ne_err

/-- The movement branch can only fail with its own four codes. -/
theorem moveBranch_not_invalid_color (n : NState) (c : Color)
    (from? to? : Option Coord) (now : String) :
    moveBranch n c from? to? now ≠ .err "invalid_color" := by
  match from?, to? with
  | none, none =>
    apply err_ne_err
    decide
  | none, some _ =>
    apply err_ne_err
    decide
  | some _, none =>
    apply err_ne_err
    decide
  | some f, some t =>
    simp only [moveBranch]
    split_ifs
    all_goals try (apply err_ne_err; decide)
    apply commitAction_ne_err

/-- C10: `applyAction` never reports `invalid_color` — the normalized turn
field is always `black` or `white`, so an action whose color is neither
already fails the preceding turn-equality check with `not_your_turn`,
leaving the `invalid_color` branch unreachable, and no later branch emits
that code. -/
theorem applyAction_no_invalid_color (state : JVal) (action : Action) (now : String) :
    applyAction state action now ≠ .err "invalid_color" := by
  unfold applyAction applyActionCore
  by_cases h1 : ¬ isStr (normalizeState state).status "playing"
  · rw [if_pos h1]
    apply err_ne_err
    decide
  · rw [if_neg h1]
    by_cases h2 : action.color ≠ colorStr (normalizeState state).turn
    · rw [if_pos h2]
      apply err_ne_err
      decide
    · rw [if_neg h2]
      have h3 : ¬ (action.color ≠ "black" ∧ action.color ≠ "white") := by
        push_neg at h2
        rintro ⟨hb, hw⟩
        cases hn : (normalizeState state).turn
        · rw [hn] at h2
          exact hb (by simpa [colorStr] using h2)
        · rw [hn] at h2
          exact hw (by simpa [colorStr] using h2)
      rw [if_neg h3]
      by_cases h4 : action.type = "place"
      · rw [if_pos h4]
        apply placeBranch_not_invalid_color
      · rw [if_neg h4]
        by_cases h5 : action.type = "move"
        · rw [if_pos h5]
          apply moveBranch_not_invalid_color
        · rw [if_neg h5]
          apply err_ne_err
          decide

/-- C6 counterexample: `normalizeState` does not clamp `placed` to 0..6 and
does not restrict `status` to waiting/playing/finished — it keeps any
finite number and any truthy value.  On `badInput` the result has
`placed.black = 7` and `status = "bogus"`. -/
theorem normalizeState_shape_counterexample :
    (normalizeState badInput).placedBlack = 7 ∧
    ¬ (normalizeState badInput).placedBlack ≤ 6 ∧
    (normalizeState badInput).status = JVal.str "bogus" ∧
    JVal.str "bogus" ≠ JVal.str "waiting" ∧
    JVal.str "bogus" ≠ JVal.str "playing" ∧
    JVal.str "bogus" ≠ JVal.str "finished" := by
  refine ⟨rfl, ?_, rfl, ?_, ?_, ?_⟩
  · show ¬ (7 : ℚ) ≤ 6
    norm_num
  all_goals
    intro h
    injection h with h'
    exact absurd h' (by decide)

/-- Truthy defaults stay truthy. -/
theorem truthy_jOrDefault {v d : JVal} (hd : truthy d = true) :
    truthy (jOrDefault v d) = true := by
  unfold jOrDefault
  by_cases hv : truthy v = true
  · rw [if_pos hv]
    exact hv
  · simp only [Bool.not_eq_true] at hv
    rw [if_neg (by simp [hv])]
    exact hd

/-- Null defaults give null or a truthy value. -/
theorem jOrDefault_null (v : JVal) :
    jOrDefault v .null = .null ∨ truthy (jOrDefault v .null) = true := by
  unfold jOrDefault
  by_cases hv : truthy v = true
  · right
    rw [if_pos hv]
    exact hv
  · left
    simp only [Bool.not_eq_true] at hv
    rw [if_neg (by simp [hv])]

/-- C6 amended: `normalizeState` is total and always produces the canonical
shape — the board is empty outside the 5x5 grid and every cell is typed
black/white/empty, `turn` is black or white and the ready flags are
booleans (by construction of the result type), `status` is a truthy value
or `"waiting"`, and `winner`/`result`/`lastMove` are `null` or truthy
pass-throughs.  The placed counts are arbitrary finite numbers (non-finite
input defaults to 0); no 0..6 range or integrality is enforced, and
`status`/`winner`/`result` are not restricted to their canonical
vocabularies. -/
theorem normalizeState_total_shape (j : JVal) :
    (∀ r c : ℤ, ¬ inBounds r c → (normalizeState j).board r c = none) ∧
    truthy (normalizeState j).status = true ∧
    ((normalizeState j).winner = .null ∨ truthy (normalizeState j).winner = true) ∧
    ((normalizeState j).result = .null ∨ truthy (normalizeState j).result = true) ∧
    ((normalizeState j).lastMove = .null ∨
      truthy (normalizeState j).lastMove = true) := by
  unfold normalizeState
  by_cases hg : truthy j = true ∧ isObjLike j = true
  · rw [if_pos hg]
    refine ⟨?_, ?_, ?_, ?_, ?_⟩
    · intro r c hrc
      simp only [normBoard]
      rw [if_neg hrc]
    · exact truthy_jOrDefault rfl
    · exact jOrDefault_null _
    · exact jOrDefault_null _
    · exact jOrDefault_null _
  · rw [if_neg hg]
    exact ⟨fun _ _ _ => rfl, rfl, Or.inl rfl, Or.inl rfl, Or.inl rfl⟩

/-- A successful strict string test reveals the value. -/
theorem isStr_eq {v : JVal} {t : String} (h : isStr v t = true) : v = .str t := by
  cases v <;> simp [isStr] at h
  rw [h]

/-- Inversion of a successful `applyAction` body: the state was playing,
the action's color was the turn color, and one of the two typed branches
succeeded. -/
theorem applyActionCore_ok_inv (s : NState) (a : Action) (now : String) (s' : NState)
    (h : applyActionCore s a now = .ok s') :
    s.status = JVal.str "playing" ∧ a.color = colorStr s.turn ∧
    ((a.type = "place" ∧ placeBranch s s.turn a.toPos now = .ok s') ∨
      (a.type = "move" ∧ moveBranch s s.turn a.fromPos a.toPos now = .ok s')) := by
  unfold applyActionCore at h
  by_cases h1 : ¬ isStr s.status "playing"
  · rw [if_pos h1] at h
    exact absurd h.symm ok_ne_err
  · rw [if_neg h1] at h
    push_neg at h1
    by_cases h2 : a.color ≠ colorStr s.turn
    · rw [if_pos h2] at h
      exact absurd h.symm ok_ne_err
    · rw [if_neg h2] at h
      push_neg at h2
      refine ⟨isStr_eq (by simpa using h1), h2, ?_⟩
      by_cases h3 : a.color ≠ "black" ∧ a.color ≠ "white"
      · rw [if_pos h3] at h
        exact absurd h.symm ok_ne_err
      · rw [if_neg h3] at h
        by_cases h4 : a.type = "place"
        · rw [if_pos h4] at h
          exact Or.inl ⟨h4, h⟩
        · rw [if_neg h4] at h
          by_cases h5 : a.type = "move"
          · rw [if_pos h5] at h
            exact Or.inr ⟨h5, h⟩
          · rw [if_neg h5] at h
            exact absurd h.symm ok_ne_err

/-- Inversion of a successful placement branch. -/
theorem placeBranch_ok_inv (n : NState) (c : Color) (to? : Option Coord)
    (now : String) (s' : NState) (h : placeBranch n c to? now = .ok s') :
    ∃ t, to? = some t ∧ inBounds t.row t.col ∧ placedGet n c < MAX_PIECES ∧
      n.board t.row t.col = none ∧
      commitAction
        (placedSet { n with board := updCell n.board t.row t.col (some c) } c
          (jsInc (placedGet n c)))
        "place" c none (some t) [] now = .ok s' := by
  match to? with
  | none => exact absurd h.symm ok_ne_err
  | some t =>
    refine ⟨t, rfl, ?_⟩
    simp only [placeBranch] at h
    by_cases h1 : ¬ inBounds t.row t.col
    · rw [if_pos h1] at h
      exact absurd h.symm ok_ne_err
    · rw [if_neg h1] at h
      push_neg at h1
      by_cases h2 : MAX_PIECES ≤ placedGet n c
      · rw [if_pos h2] at h
        exact absurd h.symm ok_ne_err
      · rw [if_neg h2] at h
        by_cases h3 : n.board t.row t.col ≠ none
        · rw [if_pos h3] at h
          exact absurd h.symm ok_ne_err
        · rw [if_neg h3] at h
          push_neg at h3
          exact ⟨h1, lt_of_not_le h2, h3, h⟩

/-- Inversion of a successful movement branch. -/
theorem moveBranch_ok_inv (n : NState) (c : Color) (from? to? : Option Coord)
    (now : String) (s' : NState) (h : moveBranch n c from? to? now = .ok s') :
    ∃ f t, from? = some f ∧ to? = some t ∧
      inBounds f.row f.col ∧ inBounds t.row t.col ∧
      n.board f.row f.col = some c ∧ n.board t.row t.col = none ∧
      (isValidStepMove f t ∨ isValidDiagonalSlide n.board c f t = true) ∧
      commitAction
        { n with board :=
            (flipSandwiched (updCell (updCell n.board f.row f.col none) t.row t.col
              (some c)) c t).1 }
        "move" c (some f) (some t)
        (flipSandwiched (updCell (updCell n.board f.row f.col none) t.row t.col
          (some c)) c t).2 now = .ok s' := by
  match from?, to? with
  | none, none => exact absurd h.symm ok_ne_err
  | none, some _ => exact absurd h.symm ok_ne_err
  | some _, none => exact absurd h.symm ok_ne_err
  | some f, some t =>
    refine ⟨f, t, rfl, rfl, ?_⟩
    simp only [moveBranch] at h
    by_cases h1 : ¬ inBounds f.row f.col ∨ ¬ inBounds t.row t.col
    · rw [if_pos h1] at h
      exact absurd h.symm ok_ne_err
    · rw [if_neg h1] at h
      push_neg at h1
      by_cases h2 : n.board f.row f.col ≠ some c
      · rw [if_pos h2] at h
        exact absurd h.symm ok_ne_err
      · rw [if_neg h2] at h
        push_neg at h2
        by_cases h3 : n.board t.row t.col ≠ none
        · rw [if_pos h3] at h
          exact absurd h.symm ok_ne_err
        · rw [if_neg h3] at h
          push_neg at h3
          by_cases h4 : ¬ isValidStepMove f t ∧ ¬ isValidDiagonalSlide n.board c f t
          · rw [if_pos h4] at h
            exact absurd h.symm ok_ne_err
          · rw [if_neg h4] at h
            refine ⟨h1.1, h1.2, h2, h3, ?_, h⟩
            by_cases hs : isValidStepMove f t
            · exact Or.inl hs
            · refine Or.inr ?_
              by_cases hd : isValidDiagonalSlide n.board c f t = true
              · exact hd
              · exact absurd ⟨hs, by simpa using hd⟩ h4

/-- Inversion of the commit tail: all fields of the produced state, with
the status/winner/result/turn updates keyed by the mover's longest line. -/
theorem commitAction_ok_inv (n : NState) (ty : String) (c : Color)
    (f t : Option Coord) (fl : List Coord) (now : String) (s' : NState)
    (h : commitAction n ty c f t fl now = .ok s') :
    s'.board = n.board ∧ s'.placedBlack = n.placedBlack ∧
    s'.placedWhite = n.placedWhite ∧ s'.readyBlack = n.readyBlack ∧
    s'.readyWhite = n.readyWhite ∧ s'.lastMove = mkLastMove ty c f t fl now ∧
    ((5 ≤ getMaxLine n.board c ∧ s'.status = JVal.str "finished" ∧
        s'.winner = JVal.str (colorStr (getOpponent c)) ∧
        s'.result = JVal.str "five" ∧ s'.turn = n.turn) ∨
      (getMaxLine n.board c = 4 ∧ s'.status = JVal.str "finished" ∧
        s'.winner = JVal.str (colorStr c) ∧ s'.result = JVal.str "four" ∧
        s'.turn = n.turn) ∨
      (getMaxLine n.board c < 4 ∧ s'.status = n.status ∧ s'.winner = n.winner ∧
        s'.result = n.result ∧ s'.turn = getOpponent c)) := by
  simp only [commitAction, evaluateOutcome] at h
  by_cases h5 : 5 ≤ getMaxLine n.board c
  · simp only [if_pos h5] at h
    simp only [reduceCtorEq, if_pos rfl, reduceIte] at h
    injection h with h'
    subst h'
    exact ⟨rfl, rfl, rfl, rfl, rfl, rfl, Or.inl ⟨h5, rfl, rfl, rfl, rfl⟩⟩
  · simp only [if_neg h5] at h
    by_cases h4 : 4 ≤ getMaxLine n.board c
    · simp only [if_pos h4] at h
      simp only [reduceCtorEq, if_pos rfl, reduceIte] at h
      injection h with h'
      subst h'
      exact ⟨rfl, rfl, rfl, rfl, rfl, rfl, Or.inr (Or.inl ⟨by omega, rfl, rfl, rfl, rfl⟩)⟩
    · simp only [if_neg h4] at h
      simp only [reduceCtorEq, if_pos rfl, reduceIte] at h
      injection h with h'
      subst h'
      exact ⟨rfl, rfl, rfl, rfl, rfl, rfl, Or.inr (Or.inr ⟨by omega, rfl, rfl, rfl, rfl⟩)⟩

/-- Updating a placed count does not touch the board. -/
theorem placedSet_board (s : NState) (c : Color) (v : ℚ) :
    (placedSet s c v).board = s.board := by
  cases c <;> rfl

/-- Updating a placed count does not touch the turn. -/
theorem placedSet_turn (s : NState) (c : Color) (v : ℚ) :
    (placedSet s c v).turn = s.turn := by
  cases c <;> rfl

/-- Updating a placed count does not touch the status. -/
theorem placedSet_status (s : NState) (c : Color) (v : ℚ) :
    (placedSet s c v).status = s.status := by
  cases c <;> rfl

/-- Every accepted action ends in the shared commit tail, applied to a
working state that still carries the input's turn and status. -/
theorem applyOk_commit (s : NState) (a : Action) (now : String) (s' : NState)
    (h : applyActionCore s a now = .ok s') :
    ∃ (n : NState) (ty : String) (f t : Option Coord) (fl : List Coord),
      n.turn = s.turn ∧ n.status = s.status ∧
      commitAction n ty s.turn f t fl now = .ok s' := by
  obtain ⟨hst, hcol, hbr⟩ := applyActionCore_ok_inv s a now s' h
  rcases hbr with ⟨hty, hp⟩ | ⟨hty, hm⟩
  · obtain ⟨t, hto, hin, hlt, hempty, hcommit⟩ := placeBranch_ok_inv _ _ _ _ _ hp
    refine ⟨_, _, _, _, _, ?_, ?_, hcommit⟩
    · rw [placedSet_turn]
    · rw [placedSet_status]
  · obtain ⟨f, t, hfrom, hto, hfin, htin, hsrc, hdst, hvalid, hcommit⟩ :=
      moveBranch_ok_inv _ _ _ _ _ _ hm
    refine ⟨_, _, _, _, _, ?_, ?_, hcommit⟩
    · rfl
    · rfl

/-- C1: for every accepted action the outcome is decided solely by the
mover's longest line on the post-move board: at least five ends the game
with the opponent as winner and result `"five"`; exactly four ends it with
the mover as winner and result `"four"`; anything shorter keeps the game
playing and passes the turn to the opponent.  The opponent's lines are not
consulted. -/
theorem outcome_decided_by_mover_line (s : NState) (a : Action) (now : String)
    (s' : NState) (h : applyActionCore s a now = .ok s') :
    (5 ≤ getMaxLine s'.board s.turn →
      s'.status = JVal.str "finished" ∧
      s'.winner = JVal.str (colorStr (getOpponent s.turn)) ∧
      s'.result = JVal.str "five") ∧
    (getMaxLine s'.board s.turn = 4 →
      s'.status = JVal.str "finished" ∧
      s'.winner = JVal.str (colorStr s.turn) ∧
      s'.result = JVal.str "four") ∧
    (getMaxLine s'.board s.turn < 4 →
      s'.status = JVal.str "playing" ∧ s'.turn = getOpponent s.turn) := by
  have hst : s.status = JVal.str "playing" :=
    (applyActionCore_ok_inv s a now s' h).1
  obtain ⟨n, ty, f, t, fl, hnturn, hnstatus, hcommit⟩ := applyOk_commit s a now s' h
  obtain ⟨hb, _, _, _, _, _, htri⟩ := commitAction_ok_inv _ _ _ _ _ _ _ _ hcommit
  have hml : getMaxLine s'.board s.turn = getMaxLine n.board s.turn := by
    rw [hb]
  rcases htri with ⟨h5, hs1, hw1, hr1, _⟩ | ⟨h4, hs1, hw1, hr1, _⟩ |
    ⟨hlt, hs1, hw1, hr1, ht1⟩
  · refine ⟨fun _ => ⟨hs1, hw1, hr1⟩, fun hc => ?_, fun hc => ?_⟩
    · rw [hml] at hc
      omega
    · rw [hml] at hc
      omega
  · refine ⟨fun hc => ?_, fun _ => ⟨hs1, hw1, hr1⟩, fun hc => ?_⟩
    · rw [hml] at hc
      omega
    · rw [hml] at hc
      omega
  · refine ⟨fun hc => ?_, fun hc => ?_, fun _ => ⟨?_, ht1⟩⟩
    · rw [hml] at hc
      omega
    · rw [hml] at hc
      omega
    · rw [hs1, hnstatus, hst]

/-- Witness for C1: black completes four in a diagonal by placing at
`(3,3)`; the accepted action finishes the game with black as winner and
result `"four"`. -/
theorem outcome_decided_by_mover_line_witness :
    applyActionCore diag3State placeD3 "t"
      = .ok ((applyActionCore diag3State placeD3 "t").stateD createWaitingState) ∧
    getMaxLine ((applyActionCore diag3State placeD3 "t").stateD
      createWaitingState).board diag3State.turn = 4 ∧
    ((applyActionCore diag3State placeD3 "t").stateD createWaitingState).status
      = JVal.str "finished" ∧
    ((applyActionCore diag3State placeD3 "t").stateD createWaitingState).winner
      = JVal.str "black" ∧
    ((applyActionCore diag3State placeD3 "t").stateD createWaitingState).result
      = JVal.str "four" := by
  have h : applyActionCore diag3State placeD3 "t"
      = .ok ((applyActionCore diag3State placeD3 "t").stateD createWaitingState) := by
    rfl
  have h4 : getMaxLine ((applyActionCore diag3State placeD3 "t").stateD
      createWaitingState).board diag3State.turn = 4 := by
    decide
  have hc := (outcome_decided_by_mover_line diag3State placeD3 "t" _ h).2.1 h4
  exact ⟨h, h4, hc.1, hc.2.1, hc.2.2⟩

/-- How an accepted action can change the placed counters: a counter is
untouched, or (for the mover's placement) incremented from a value that was
strictly below the budget. -/
theorem applyOk_placed (s : NState) (a : Action) (now : String) (s' : NState)
    (h : applyActionCore s a now = .ok s') :
    (s'.placedBlack = s.placedBlack ∨
      (s'.placedBlack = jsInc s.placedBlack ∧ s.placedBlack < 6)) ∧
    (s'.placedWhite = s.placedWhite ∨
      (s'.placedWhite = jsInc s.placedWhite ∧ s.placedWhite < 6)) := by
  obtain ⟨hst, hcol, hbr⟩ := applyActionCore_ok_inv s a now s' h
  rcases hbr with ⟨hty, hp⟩ | ⟨hty, hm⟩
  · obtain ⟨t, hto, hin, hlt, hempty, hcommit⟩ := placeBranch_ok_inv _ _ _ _ _ hp
    obtain ⟨_, hpb, hpw, _, _, _, _⟩ := commitAction_ok_inv _ _ _ _ _ _ _ _ hcommit
    cases hc : s.turn
    · rw [hc] at hpb hpw hlt
      exact ⟨Or.inr ⟨hpb, hlt⟩, Or.inl hpw⟩
    · rw [hc] at hpb hpw hlt
      exact ⟨Or.inl hpb, Or.inr ⟨hpw, hlt⟩⟩
  · obtain ⟨f, t, hfrom, hto, hfin, htin, hsrc, hdst, hvalid, hcommit⟩ :=
      moveBranch_ok_inv _ _ _ _ _ _ hm
    obtain ⟨_, hpb, hpw, _, _, _, _⟩ := commitAction_ok_inv _ _ _ _ _ _ _ _ hcommit
    exact ⟨Or.inl hpb, Or.inl hpw⟩

/-- One replay step preserves the natural-number budget bound on both
placed counters. -/
theorem stepAccepted_placed_nat (s : NState) (an : Action × String)
    (hs : ((∃ n : ℕ, n ≤ 6 ∧ s.placedBlack = n) ∧
      ∃ n : ℕ, n ≤ 6 ∧ s.placedWhite = n)) :
    ((∃ n : ℕ, n ≤ 6 ∧ (stepAccepted s an).placedBlack = n) ∧
      ∃ n : ℕ, n ≤ 6 ∧ (stepAccepted s an).placedWhite = n) := by
  unfold stepAccepted
  obtain ⟨⟨nb, hnb6, hnb⟩, ⟨nw, hnw6, hnw⟩⟩ := hs
  cases hres : applyActionCore s an.1 an.2 with
  | err e => exact ⟨⟨nb, hnb6, hnb⟩, ⟨nw, hnw6, hnw⟩⟩
  | ok s' =>
    obtain ⟨hb, hw⟩ := applyOk_placed s an.1 an.2 s' hres
    constructor
    · rcases hb with hb | ⟨hb, hlt⟩
      · exact ⟨nb, hnb6, by rw [hb, hnb]⟩
      · refine ⟨nb + 1, ?_, ?_⟩
        · rw [hnb] at hlt
          have : nb < 6 := by exact_mod_cast hlt
          omega
        · rw [hb, jsInc_eq, hnb]
          push_cast
          ring
    · rcases hw with hw | ⟨hw, hlt⟩
      · exact ⟨nw, hnw6, by rw [hw, hnw]⟩
      · refine ⟨nw + 1, ?_, ?_⟩
        · rw [hnw] at hlt
          have : nw < 6 := by exact_mod_cast hlt
          omega
        · rw [hw, jsInc_eq, hnw]
          push_cast
          ring

/-- The budget bound propagates through any replayed action list. -/
theorem foldl_placed_nat : ∀ (acts : List (Action × String)) (s : NState),
    ((∃ n : ℕ, n ≤ 6 ∧ s.placedBlack = n) ∧ ∃ n : ℕ, n ≤ 6 ∧ s.placedWhite = n) →
    ((∃ n : ℕ, n ≤ 6 ∧ (acts.foldl stepAccepted s).placedBlack = n) ∧
      ∃ n : ℕ, n ≤ 6 ∧ (acts.foldl stepAccepted s).placedWhite = n)
  | [], _, hs => hs
  | an :: rest, s, hs =>
    foldl_placed_nat rest (stepAccepted s an) (stepAccepted_placed_nat s an hs)

/-- C5: replaying any action sequence from a fresh game (keeping only
accepted results) keeps both placed counters at most 6, and a placement
attempted with the budget exhausted is rejected with `no_pieces_left`
regardless of the target cell's occupancy — the budget check precedes the
occupancy check. -/
theorem placement_budget_invariant :
    (∀ acts : List (Action × String),
      (runActions acts).placedBlack ≤ 6 ∧ (runActions acts).placedWhite ≤ 6) ∧
    (∀ (s : NState) (c : Color) (t : Coord) (now : String),
      s.status = JVal.str "playing" → s.turn = c → inBounds t.row t.col →
      placedGet s c = 6 →
      applyActionCore s ⟨"place", colorStr c, none, some t⟩ now
        = .err "no_pieces_left") := by
  constructor
  · intro acts
    have h0 : ((∃ n : ℕ, n ≤ 6 ∧ createNewGameState.placedBlack = n) ∧
        ∃ n : ℕ, n ≤ 6 ∧ createNewGameState.placedWhite = n) :=
      ⟨⟨0, by omega, by norm_num [createNewGameState]⟩,
        ⟨0, by omega, by norm_num [createNewGameState]⟩⟩
    obtain ⟨⟨nb, hnb6, hnb⟩, ⟨nw, hnw6, hnw⟩⟩ := foldl_placed_nat acts _ h0
    rw [runActions, hnb, hnw]
    constructor <;> exact_mod_cast ‹_ ≤ 6›
  · intro s c t now hst hturn hin hp
    unfold applyActionCore
    rw [hst, hturn]
    rw [if_neg (by decide)]
    rw [if_neg (by simp)]
    have hcc : ¬((⟨"place", colorStr c, none, some t⟩ : Action).color ≠ "black" ∧
        (⟨"place", colorStr c, none, some t⟩ : Action).color ≠ "white") := by
      cases c <;> simp [colorStr]
    rw [if_neg hcc]
    rw [if_pos rfl]
    simp only [placeBranch]
    rw [if_neg (by simpa using hin)]
    rw [if_pos (by rw [hp]; norm_num [MAX_PIECES])]

/-- Witness for C5: a single-placement replay stays within budget, and
with six pieces placed a placement onto an occupied cell still fails with
`no_pieces_left`, not `occupied`. -/
theorem placement_budget_invariant_witness :
    ((runActions [(placeD3, "t")]).placedBlack ≤ 6 ∧
      (runActions [(placeD3, "t")]).placedWhite ≤ 6) ∧
    budget6State.board 0 0 = some Color.white ∧
    applyActionCore budget6State placeOcc "t" = .err "no_pieces_left" := by
  refine ⟨placement_budget_invariant.1 [(placeD3, "t")], by decide, ?_⟩
  exact placement_budget_invariant.2 budget6State .black ⟨0, 0⟩ "t" rfl rfl
    (by decide) rfl

/-- The code's step-move test is exactly Chebyshev distance one, given an
in-bounds destination. -/
theorem isValidStepMove_iff (f t : Coord) (hin : inBounds t.row t.col) :
    isValidStepMove f t ↔ specStepMove f t := by
  unfold isValidStepMove specStepMove
  rw [Int.abs_eq_natAbs, Int.abs_eq_natAbs]
  constructor
  · rintro ⟨h1, h2, h3, _⟩
    omega
  · intro h
    refine ⟨?_, ?_, ?_, hin⟩ <;> omega

/-- Pointwise reading of the slide-path loop: the loop accepts exactly when
every visited cell is in bounds and in the mover's zone, and every cell
before the last is empty. -/
theorem slidePathOk_iff (b : BoardZ) (c : Color) (sr sc : ℤ) :
    ∀ (n : ℕ) (r0 c0 : ℤ),
      slidePathOk b c sr sc n r0 c0 = true ↔
        ∀ j : ℕ, j < n →
          inBounds (r0 + j * sr) (c0 + j * sc) ∧
          getCellType (r0 + j * sr) (c0 + j * sc) = colorStr c ∧
          (j + 1 < n → b (r0 + j * sr) (c0 + j * sc) = none) := by
  intro n
  induction n with
  | zero =>
    intro r0 c0
    simp [slidePathOk]
  | succ m ih =>
    intro r0 c0
    have heq : slidePathOk b c sr sc (m + 1) r0 c0 =
        (if ¬ inBounds r0 c0 then false
         else if getCellType r0 c0 ≠ colorStr c then false
         else if 0 < m ∧ b r0 c0 ≠ none then false
         else slidePathOk b c sr sc m (r0 + sr) (c0 + sc)) := rfl
    rw [heq]
    by_cases h1 : ¬ inBounds r0 c0
    · rw [if_pos h1]
      simp only [Bool.false_eq_true, false_iff]
      intro hall
      exact h1 (by simpa using (hall 0 (by omega)).1)
    · rw [if_neg h1]
      push_neg at h1
      by_cases h2 : getCellType r0 c0 ≠ colorStr c
      · rw [if_pos h2]
        simp only [Bool.false_eq_true, false_iff]
        intro hall
        exact h2 (by simpa using (hall 0 (by omega)).2.1)
      · rw [if_neg h2]
        push_neg at h2
        by_cases h3 : 0 < m ∧ b r0 c0 ≠ none
        · rw [if_pos h3]
          simp only [Bool.false_eq_true, false_iff]
          intro hall
          refine h3.2 ?_
          have := (hall 0 (by omega)).2.2 (by omega)
          simpa using this
        · rw [if_neg h3]
          rw [ih (r0 + sr) (c0 + sc)]
          constructor
          · intro hall j hj
            match j with
            | 0 =>
              refine ⟨by simpa using h1, by simpa using h2, ?_⟩
              intro hlt
              by_contra hne
              exact h3 ⟨by omega, by simpa using hne⟩
            | j + 1 =>
              have hj' : j < m := by omega
              have := hall j hj'
              have hco : r0 + (↑(j + 1)) * sr = r0 + sr + ↑j * sr := by
                push_cast
                ring
              have hco2 : c0 + (↑(j + 1)) * sc = c0 + sc + ↑j * sc := by
                push_cast
                ring
              rw [hco, hco2]
              exact ⟨this.1, this.2.1, fun hlt => this.2.2 (by omega)⟩
          · intro hall j hj
            have hco : r0 + sr + ↑j * sr = r0 + (↑(j + 1)) * sr := by
              push_cast
              ring
            have hco2 : c0 + sc + ↑j * sc = c0 + (↑(j + 1)) * sc := by
              push_cast
              ring
            rw [hco, hco2]
            have := hall (j + 1) (by omega)
            exact ⟨this.1, this.2.1, fun hlt => this.2.2 (by omega)⟩

/-- A nonzero integer's sign is `1` or `-1`. -/
theorem sign_one_or_neg_one {d : ℤ} (hd : d ≠ 0) :
    Int.sign d = 1 ∨ Int.sign d = -1 := by
  rcases lt_trichotomy d 0 with h | h | h
  · right
    exact Int.sign_eq_neg_one_iff_neg.2 h
  · exact absurd h hd
  · left
    exact Int.sign_eq_one_iff_pos.2 h

/-- The code's diagonal-slide test matches the spec wording, for in-bounds
endpoints. -/
theorem isValidDiagonalSlide_iff (b : BoardZ) (c : Color) (f t : Coord)
    (hfin : inBounds f.row f.col) (htin : inBounds t.row t.col) :
    isValidDiagonalSlide b c f t = true ↔ specDiagonalSlide b c f t := by
  unfold isValidDiagonalSlide
  constructor
  · intro h
    by_cases h1 : |t.row - f.row| ≤ 1 ∨ |t.row - f.row| ≠ |t.col - f.col|
    · rw [if_pos h1] at h
      exact absurd h (by simp)
    · rw [if_neg h1] at h
      push_neg at h1
      obtain ⟨hgt, habs⟩ := h1
      by_cases h2 : getCellType f.row f.col ≠ colorStr c
      · rw [if_pos h2] at h
        exact absurd h (by simp)
      · rw [if_neg h2] at h
        push_neg at h2
        set dr := t.row - f.row with hdr
        set dc := t.col - f.col with hdc
        have hdrne : dr ≠ 0 := by
          intro h0
          rw [h0] at hgt
          simp at hgt
        have hdcne : dc ≠ 0 := by
          intro h0
          rw [h0] at habs
          simp at habs
          omega
        set k := dr.natAbs with hk
        have hkabs : |dr| = (k : ℤ) := Int.abs_eq_natAbs dr
        have h2k : 2 ≤ k := by
          rw [hkabs] at hgt
          exact_mod_cast hgt
        have hton : |dr|.toNat = k := by
          rw [hkabs]
          exact Int.toNat_natCast k
        have hdreq : dr = (k : ℤ) * Int.sign dr := by
          rw [mul_comm]
          exact (Int.sign_mul_natAbs dr).symm
        have hdceq : dc = (k : ℤ) * Int.sign dc := by
          have hnn : dc.natAbs = k := by
            have h' : |dc| = (k : ℤ) := by
              rw [← habs, hkabs]
            rw [Int.abs_eq_natAbs] at h'
            exact_mod_cast h'
          rw [mul_comm, ← hnn]
          exact (Int.sign_mul_natAbs dc).symm
        rw [hton] at h
        rw [slidePathOk_iff] at h
        refine ⟨k, Int.sign dr, Int.sign dc, h2k,
          sign_one_or_neg_one hdrne, sign_one_or_neg_one hdcne, ?_, ?_, h2, ?_, ?_⟩
        · rw [← hdreq]
          omega
        · rw [← hdceq]
          omega
        · intro i h1i hik
          have hfacts := h (i - 1) (by omega)
          have hco : f.row + Int.sign dr + ↑(i - 1) * Int.sign dr
              = f.row + ↑i * Int.sign dr := by
            rw [show ((i - 1 : ℕ) : ℤ) = (i : ℤ) - 1 by omega]
            ring
          have hco2 : f.col + Int.sign dc + ↑(i - 1) * Int.sign dc
              = f.col + ↑i * Int.sign dc := by
            rw [show ((i - 1 : ℕ) : ℤ) = (i : ℤ) - 1 by omega]
            ring
          rw [hco, hco2] at hfacts
          exact hfacts.2.1
        · intro i h1i hik
          have hfacts := h (i - 1) (by omega)
          have hco : f.row + Int.sign dr + ↑(i - 1) * Int.sign dr
              = f.row + ↑i * Int.sign dr := by
            rw [show ((i - 1 : ℕ) : ℤ) = (i : ℤ) - 1 by omega]
            ring
          have hco2 : f.col + Int.sign dc + ↑(i - 1) * Int.sign dc
              = f.col + ↑i * Int.sign dc := by
            rw [show ((i - 1 : ℕ) : ℤ) = (i : ℤ) - 1 by omega]
            ring
          rw [hco, hco2] at hfacts
          exact hfacts.2.2 (by omega)
  · rintro ⟨k, dr', dc', h2k, hdr', hdc', hrow, hcol, hzone0, hzone, hempty⟩
    have hdr : t.row - f.row = (k : ℤ) * dr' := by omega
    have hdc : t.col - f.col = (k : ℤ) * dc' := by omega
    have habs1 : |(1 : ℤ)| = 1 := by decide
    have hadr : |t.row - f.row| = (k : ℤ) := by
      rw [hdr, abs_mul]
      rcases hdr' with h | h <;> rw [h] <;> simp
    have hadc : |t.col - f.col| = (k : ℤ) := by
      rw [hdc, abs_mul]
      rcases hdc' with h | h <;> rw [h] <;> simp
    have hguard : ¬ (|t.row - f.row| ≤ 1 ∨ |t.row - f.row| ≠ |t.col - f.col|) := by
      push_neg
      constructor
      · rw [hadr]
        exact_mod_cast by omega
      · rw [hadr, hadc]
    rw [if_neg hguard, if_neg (by simpa using hzone0)]
    have hsdr : Int.sign (t.row - f.row) = dr' := by
      rcases hdr' with h | h <;> rw [h] at hdr ⊢
      · exact Int.sign_eq_one_iff_pos.2 (by omega)
      · exact Int.sign_eq_neg_one_iff_neg.2 (by omega)
    have hsdc : Int.sign (t.col - f.col) = dc' := by
      rcases hdc' with h | h <;> rw [h] at hdc ⊢
      · exact Int.sign_eq_one_iff_pos.2 (by omega)
      · exact Int.sign_eq_neg_one_iff_neg.2 (by omega)
    have hton : |t.row - f.row|.toNat = k := by
      rw [hadr]
      exact Int.toNat_natCast k
    rw [hsdr, hsdc, hton, slidePathOk_iff]
    intro j hj
    have hco : f.row + dr' + ↑j * dr' = f.row + ↑(j + 1) * dr' := by
      push_cast
      ring
    have hco2 : f.col + dc' + ↑j * dc' = f.col + ↑(j + 1) * dc' := by
      push_cast
      ring
    rw [hco, hco2]
    refine ⟨?_, hzone (j + 1) (by omega) (by omega), fun hlt =>
      hempty (j + 1) (by omega) (by omega)⟩
    obtain ⟨hf1, hf2, hf3, hf4⟩ := hfin
    obtain ⟨ht1, ht2, ht3, ht4⟩ := htin
    refine ⟨?_, ?_, ?_, ?_⟩ <;>
      rcases hdr' with h | h <;> rcases hdc' with h' | h' <;>
        simp only [h, h', mul_one, mul_neg_one] at hrow hcol ⊢ <;>
        omega

/-- Reduction of an in-turn move action with an owned source and an empty
in-bounds destination: everything up to the validator test passes, leaving
either `invalid_move` or the commit.  -/
theorem applyActionCore_move_red (s : NState) (c : Color) (f t : Coord)
    (now : String)
    (hst : s.status = JVal.str "playing") (hturn : s.turn = c)
    (hfin : inBounds f.row f.col) (htin : inBounds t.row t.col)
    (hsrc : s.board f.row f.col = some c) (hdst : s.board t.row t.col = none) :
    applyActionCore s ⟨"move", colorStr c, some f, some t⟩ now =
      if ¬ isValidStepMove f t ∧ ¬ isValidDiagonalSlide s.board c f t then
        .err "invalid_move"
      else
        commitAction
          { s with board := (flipSandwiched (updCell (updCell s.board f.row f.col
              none) t.row t.col (some c)) c t).1 }
          "move" c (some f) (some t)
          (flipSandwiched (updCell (updCell s.board f.row f.col none) t.row t.col
            (some c)) c t).2 now := by
  unfold applyActionCore
  rw [hst, hturn]
  rw [if_neg (by decide)]
  rw [if_neg (by simp)]
  have hcc : ¬((⟨"move", colorStr c, some f, some t⟩ : Action).color ≠ "black" ∧
      (⟨"move", colorStr c, some f, some t⟩ : Action).color ≠ "white") := by
    cases c <;> simp [colorStr]
  rw [if_neg hcc]
  rw [if_neg (by simp)]
  rw [if_pos rfl]
  simp only [moveBranch]
  rw [if_neg (by simp [hfin, htin])]
  rw [if_neg (by simp [hsrc])]
  rw [if_neg (by simp [hdst])]
  rw [hturn, hst]

/-- C2: under a playing state whose turn is `c`, with the source holding
`c`'s piece and an empty in-bounds destination, the move is accepted iff it
is a step move (Chebyshev distance exactly one) or a diagonal slide
(equal nonzero deltas of magnitude at least two, origin, every intermediate
cell and the destination in `c`'s own zone, intermediates empty); every
other source/destination pair is rejected with `invalid_move`. -/
theorem move_acceptance_iff (s : NState) (c : Color) (f t : Coord) (now : String)
    (hst : s.status = JVal.str "playing") (hturn : s.turn = c)
    (hfin : inBounds f.row f.col) (hsrc : s.board f.row f.col = some c)
    (htin : inBounds t.row t.col) (hdst : s.board t.row t.col = none) :
    ((∃ s', applyActionCore s ⟨"move", colorStr c, some f, some t⟩ now = .ok s') ↔
      (specStepMove f t ∨ specDiagonalSlide s.board c f t)) ∧
    (¬ (specStepMove f t ∨ specDiagonalSlide s.board c f t) →
      applyActionCore s ⟨"move", colorStr c, some f, some t⟩ now
        = .err "invalid_move") := by
  have hred := applyActionCore_move_red s c f t now hst hturn hfin htin hsrc hdst
  by_cases hv : ¬ isValidStepMove f t ∧ ¬ isValidDiagonalSlide s.board c f t
  · rw [if_pos hv] at hred
    have hnspec : ¬ (specStepMove f t ∨ specDiagonalSlide s.board c f t) := by
      rintro (hsp | hsp)
      · exact hv.1 ((isValidStepMove_iff f t htin).2 hsp)
      · exact hv.2 ((isValidDiagonalSlide_iff s.board c f t hfin htin).2 hsp)
    refine ⟨?_, fun _ => hred⟩
    rw [iff_false_intro hnspec, iff_false]
    rintro ⟨s', hs'⟩
    rw [hred] at hs'
    exact ok_ne_err hs'.symm
  · rw [if_neg hv] at hred
    have hspec : specStepMove f t ∨ specDiagonalSlide s.board c f t := by
      by_cases hA : isValidStepMove f t
      · exact Or.inl ((isValidStepMove_iff f t htin).1 hA)
      · by_cases hB : isValidDiagonalSlide s.board c f t = true
        · exact Or.inr ((isValidDiagonalSlide_iff s.board c f t hfin htin).1 hB)
        · exact absurd ⟨hA, hB⟩ hv
    obtain ⟨s', hs'⟩ := commitAction_isOk _ "move" c (some f) (some t) _ now
    exact ⟨⟨fun _ => hspec, fun _ => ⟨s', by rw [hred, hs']⟩⟩, fun hn => absurd hspec hn⟩

/-- Witness for C2: on a board with one black piece on the black-zone cell
`(0,2)`, the slide `(0,2) → (2,0)` through `(1,1)` is enumerated by the
spec disjunction and accepted, and the non-move `(0,2) → (3,2)` (distance 3
down a column) is rejected with `invalid_move`. -/
theorem move_acceptance_iff_witness :
    (∃ s', applyActionCore slideState
      ⟨"move", colorStr .black, some ⟨0, 2⟩, some ⟨2, 0⟩⟩ "t" = .ok s') ∧
    applyActionCore slideState ⟨"move", colorStr .black, some ⟨0, 2⟩, some ⟨3, 2⟩⟩ "t"
      = .err "invalid_move" := by
  constructor
  · exact (move_acceptance_iff slideState .black ⟨0, 2⟩ ⟨2, 0⟩ "t" rfl rfl
      (by decide) (by decide) (by decide) (by decide)).1.2
      (Or.inr ⟨2, 1, -1, by omega, Or.inl rfl, Or.inr rfl, by decide, by decide,
        by decide, by decide, by decide⟩)
  · refine (move_acceptance_iff slideState .black ⟨0, 2⟩ ⟨3, 2⟩ "t" rfl rfl
      (by decide) (by decide) (by decide) (by decide)).2 ?_
    rintro (hsp | ⟨k, dr, dc, h2k, hdr, hdc, hrow, hcol, _⟩)
    · revert hsp
      decide
    · simp only [] at hrow hcol
      rcases hdr with h | h <;> rcases hdc with h' | h' <;>
        rw [h] at hrow <;> rw [h'] at hcol <;> omega

/-- Every cell collected by the run walk lies on its ray and held the
opponent's color. -/
theorem collectRun_mem (b : BoardZ) (opp : Color) (dr dc : ℤ) :
    ∀ (fuel : ℕ) (r0 c0 : ℤ) (p : Coord),
      p ∈ collectRun b opp dr dc fuel r0 c0 →
      (∃ j : ℕ, p.row = r0 + j * dr ∧ p.col = c0 + j * dc) ∧
      b p.row p.col = some opp := by
  intro fuel
  induction fuel with
  | zero =>
    intro r0 c0 p hp
    simp [collectRun] at hp
  | succ m ih =>
    intro r0 c0 p hp
    rw [collectRun] at hp
    by_cases hc : inBounds r0 c0 ∧ b r0 c0 = some opp
    · rw [if_pos hc] at hp
      rcases List.mem_cons.1 hp with hp | hp
      · subst hp
        exact ⟨⟨0, by simp, by simp⟩, hc.2⟩
      · obtain ⟨⟨j, hr, hcol⟩, hv⟩ := ih (r0 + dr) (c0 + dc) p hp
        refine ⟨⟨j + 1, ?_, ?_⟩, hv⟩
        · rw [hr]
          push_cast
          ring
        · rw [hcol]
          push_cast
          ring
    · rw [if_neg hc] at hp
      simp at hp

/-- The run walk only reads its own ray: boards that agree on the ray
produce the same run. -/
theorem collectRun_congr (b b' : BoardZ) (opp : Color) (dr dc : ℤ) :
    ∀ (fuel : ℕ) (r0 c0 : ℤ),
      (∀ j : ℕ, b' (r0 + j * dr) (c0 + j * dc) = b (r0 + j * dr) (c0 + j * dc)) →
      collectRun b' opp dr dc fuel r0 c0 = collectRun b opp dr dc fuel r0 c0 := by
  intro fuel
  induction fuel with
  | zero =>
    intro r0 c0 _
    rfl
  | succ m ih =>
    intro r0 c0 hag
    have h0 : b' r0 c0 = b r0 c0 := by
      have := hag 0
      simpa using this
    rw [collectRun, collectRun, h0]
    by_cases hc : inBounds r0 c0 ∧ b r0 c0 = some opp
    · rw [if_pos hc, if_pos hc]
      rw [ih (r0 + dr) (c0 + dc)]
      intro j
      have := hag (j + 1)
      have hco : r0 + dr + ↑j * dr = r0 + ↑(j + 1) * dr := by
        push_cast
        ring
      have hco2 : c0 + dc + ↑j * dc = c0 + ↑(j + 1) * dc := by
        push_cast
        ring
      rw [hco, hco2]
      exact this
    · rw [if_neg hc, if_neg hc]

/-- Writing a flip list cell-by-cell is the same as overlaying it. -/
theorem flipCells_eq_overlay (c : Color) :
    ∀ (l : List Coord) (b : BoardZ), flipCells b c l = overlayFlips b c l := by
  intro l
  induction l with
  | nil =>
    intro b
    funext r col
    simp [flipCells, overlayFlips]
  | cons p rest ih =>
    intro b
    rw [flipCells, ih]
    funext r col
    simp only [overlayFlips, updCell, List.mem_cons]
    by_cases hrest : (⟨r, col⟩ : Coord) ∈ rest
    · rw [if_pos hrest, if_pos (Or.inr hrest)]
    · rw [if_neg hrest]
      by_cases hp : r = p.row ∧ col = p.col
      · rw [if_pos hp, if_pos (Or.inl (by cases p; simp_all))]
      · rw [if_neg hp, if_neg ?_]
        rintro (he | he)
        · cases p
          simp_all
        · exact hrest he

/-- Two distinct scan directions never produce the same ray cell. -/
theorem ray_dir_unique (d d' : ℤ × ℤ) (hd : d ∈ directions8) (hd' : d' ∈ directions8)
    (j j' : ℕ) (h1 : ((j : ℤ) + 1) * d.1 = ((j' : ℤ) + 1) * d'.1)
    (h2 : ((j : ℤ) + 1) * d.2 = ((j' : ℤ) + 1) * d'.2) : d = d' := by
  fin_cases hd <;> fin_cases hd' <;> first | rfl | (exfalso; omega)

/-- Overlay composition. -/
theorem overlay_overlay (b : BoardZ) (c : Color) (A B : List Coord) :
    overlayFlips (overlayFlips b c A) c B = overlayFlips b c (A ++ B) := by
  funext r col
  simp only [overlayFlips, List.mem_append]
  by_cases hB : (⟨r, col⟩ : Coord) ∈ B
  · rw [if_pos hB, if_pos (Or.inr hB)]
  · rw [if_neg hB]
    by_cases hA : (⟨r, col⟩ : Coord) ∈ A
    · rw [if_pos hA, if_pos (Or.inl hA)]
    · rw [if_neg hA, if_neg (by tauto)]

/-- Overlaying the empty flip list changes nothing. -/
theorem overlay_nil (b : BoardZ) (c : Color) : overlayFlips b c [] = b := by
  funext r col
  simp [overlayFlips]

/-- The sequential direction fold of `flipSandwiched` computes the
independent per-direction resolution: rays of distinct directions are
disjoint, so earlier flips never change what a later direction reads. -/
theorem flipFold_go (b1 : BoardZ) (c : Color) (origin : Coord) :
    ∀ (ds : List (ℤ × ℤ)) (bAcc : BoardZ) (lst : List Coord),
      (∀ d ∈ ds, d ∈ directions8) → ds.Nodup →
      (∀ d ∈ ds, ∀ j : ℕ,
        bAcc (origin.row + ((j : ℤ) + 1) * d.1) (origin.col + ((j : ℤ) + 1) * d.2)
          = b1 (origin.row + ((j : ℤ) + 1) * d.1)
              (origin.col + ((j : ℤ) + 1) * d.2)) →
      ds.foldl (flipStep c origin) (bAcc, lst)
        = (overlayFlips bAcc c (ds.flatMap (dirFlips b1 c origin)),
            lst ++ ds.flatMap (dirFlips b1 c origin)) := by
  intro ds
  induction ds with
  | nil =>
    intro bAcc lst _ _ _
    simp [overlay_nil]
  | cons d rest ih =>
    intro bAcc lst hmem hnd hag
    have hdmem : d ∈ directions8 := hmem d (List.mem_cons_self d rest)
    have hdnotin : d ∉ rest := (List.nodup_cons.1 hnd).1
    have hagd := hag d (List.mem_cons_self d rest)
    have hcand : collectRun bAcc (getOpponent c) d.1 d.2 10
        (origin.row + d.1) (origin.col + d.2) = runOf b1 c origin d := by
      rw [runOf]
      apply collectRun_congr
      intro j
      have hco : origin.row + d.1 + ↑j * d.1 = origin.row + (↑j + 1) * d.1 := by
        ring
      have hco2 : origin.col + d.2 + ↑j * d.2 = origin.col + (↑j + 1) * d.2 := by
        ring
      rw [hco, hco2]
      exact hagd j
    have hstopag : bAcc (origin.row + d.1 * ((runOf b1 c origin d).length + 1))
        (origin.col + d.2 * ((runOf b1 c origin d).length + 1))
        = b1 (origin.row + d.1 * ((runOf b1 c origin d).length + 1))
            (origin.col + d.2 * ((runOf b1 c origin d).length + 1)) := by
      have h := hagd (runOf b1 c origin d).length
      have hco : origin.row + ((((runOf b1 c origin d).length : ℤ)) + 1) * d.1
          = origin.row + d.1 * (((runOf b1 c origin d).length : ℕ) + 1) := by
        ring
      have hco2 : origin.col + ((((runOf b1 c origin d).length : ℤ)) + 1) * d.2
          = origin.col + d.2 * (((runOf b1 c origin d).length : ℕ) + 1) := by
        ring
      rw [hco, hco2] at h
      exact h
    have hstep : flipStep c origin (bAcc, lst) d =
        if (runOf b1 c origin d) ≠ [] ∧
            inBounds (origin.row + d.1 * ((runOf b1 c origin d).length + 1))
              (origin.col + d.2 * ((runOf b1 c origin d).length + 1)) ∧
            b1 (origin.row + d.1 * ((runOf b1 c origin d).length + 1))
              (origin.col + d.2 * ((runOf b1 c origin d).length + 1)) = some c
        then (flipCells bAcc c (runOf b1 c origin d), lst ++ runOf b1 c origin d)
        else (bAcc, lst) := by
      simp only [flipStep]
      rw [hcand, hstopag]
    have hdir : dirFlips b1 c origin d =
        if (runOf b1 c origin d) ≠ [] ∧
            inBounds (origin.row + d.1 * ((runOf b1 c origin d).length + 1))
              (origin.col + d.2 * ((runOf b1 c origin d).length + 1)) ∧
            b1 (origin.row + d.1 * ((runOf b1 c origin d).length + 1))
              (origin.col + d.2 * ((runOf b1 c origin d).length + 1)) = some c
        then runOf b1 c origin d else [] := rfl
    rw [List.foldl_cons, hstep]
    by_cases hc : (runOf b1 c origin d) ≠ [] ∧
        inBounds (origin.row + d.1 * ((runOf b1 c origin d).length + 1))
          (origin.col + d.2 * ((runOf b1 c origin d).length + 1)) ∧
        b1 (origin.row + d.1 * ((runOf b1 c origin d).length + 1))
          (origin.col + d.2 * ((runOf b1 c origin d).length + 1)) = some c
    · rw [if_pos hc]
      have hflat : (d :: rest).flatMap (dirFlips b1 c origin)
          = runOf b1 c origin d ++ rest.flatMap (dirFlips b1 c origin) := by
        rw [List.flatMap_cons, hdir, if_pos hc]
      have hag' : ∀ d' ∈ rest, ∀ j : ℕ,
          (flipCells bAcc c (runOf b1 c origin d))
            (origin.row + ((j : ℤ) + 1) * d'.1) (origin.col + ((j : ℤ) + 1) * d'.2)
          = b1 (origin.row + ((j : ℤ) + 1) * d'.1)
              (origin.col + ((j : ℤ) + 1) * d'.2) := by
        intro d' hd' j
        rw [flipCells_eq_overlay]
        have hnotin : (⟨origin.row + ((j : ℤ) + 1) * d'.1,
            origin.col + ((j : ℤ) + 1) * d'.2⟩ : Coord) ∉ runOf b1 c origin d := by
          intro hin
          obtain ⟨⟨j'', hr, hcol⟩, _⟩ :=
            collectRun_mem b1 (getOpponent c) d.1 d.2 10
              (origin.row + d.1) (origin.col + d.2) _ hin
          simp only [] at hr hcol
          have hr' : ((j : ℤ) + 1) * d'.1 = ((j'' : ℤ) + 1) * d.1 := by
            have : origin.row + ((j : ℤ) + 1) * d'.1
                = origin.row + d.1 + ↑j'' * d.1 := hr
            have hx : origin.row + d.1 + ↑j'' * d.1
                = origin.row + (↑j'' + 1) * d.1 := by
              ring
            rw [hx] at this
            omega
          have hc' : ((j : ℤ) + 1) * d'.2 = ((j'' : ℤ) + 1) * d.2 := by
            have : origin.col + ((j : ℤ) + 1) * d'.2
                = origin.col + d.2 + ↑j'' * d.2 := hcol
            have hx : origin.col + d.2 + ↑j'' * d.2
                = origin.col + (↑j'' + 1) * d.2 := by
              ring
            rw [hx] at this
            omega
          have : d' = d :=
            ray_dir_unique d' d (hmem d' (List.mem_cons_of_mem d hd')) hdmem
              j j'' hr' hc'
          exact hdnotin (this ▸ hd')
        simp only [overlayFlips]
        rw [if_neg hnotin]
        exact hag d' (List.mem_cons_of_mem d hd') j
      rw [ih (flipCells bAcc c (runOf b1 c origin d)) (lst ++ runOf b1 c origin d)
        (fun d' hd' => hmem d' (List.mem_cons_of_mem d hd'))
        (List.nodup_cons.1 hnd).2 hag']
      rw [hflat, flipCells_eq_overlay, overlay_overlay, List.append_assoc]
    · rw [if_neg hc]
      have hflat : (d :: rest).flatMap (dirFlips b1 c origin)
          = rest.flatMap (dirFlips b1 c origin) := by
        rw [List.flatMap_cons, hdir, if_neg hc]
        rfl
      rw [ih bAcc lst (fun d' hd' => hmem d' (List.mem_cons_of_mem d hd'))
        (List.nodup_cons.1 hnd).2
        (fun d' hd' j => hag d' (List.mem_cons_of_mem d hd') j)]
      rw [hflat]

/-- `flipSandwiched` computes the board overlay and flip list of the
independent per-direction specification. -/
theorem flipSandwiched_spec (b1 : BoardZ) (c : Color) (origin : Coord) :
    flipSandwiched b1 c origin
      = (overlayFlips b1 c (flipsSpec b1 c origin), flipsSpec b1 c origin) := by
  rw [flipSandwiched, flipsSpec]
  rw [flipFold_go b1 c origin directions8 b1 [] (fun d hd => hd) (by decide)
    (fun d _ j => rfl)]
  simp

/-- The `flipped` field of a recorded move. -/
theorem mkLastMove_flipped (ty : String) (c : Color) (f t : Option Coord)
    (fl : List Coord) (now : String) :
    getField (mkLastMove ty c f t fl now) "flipped"
      = JVal.arr (fl.map (fun p => JVal.arr [.num p.row, .num p.col])) := rfl

/-- Every cell in the flip specification held the opponent's color on the
pre-flip board. -/
theorem flipsSpec_opponent (b : BoardZ) (c : Color) (origin : Coord) :
    ∀ p ∈ flipsSpec b c origin, b p.row p.col = some (getOpponent c) := by
  intro p hp
  rw [flipsSpec, List.mem_flatMap] at hp
  obtain ⟨d, _, hpd⟩ := hp
  rw [dirFlips] at hpd
  by_cases hcond : (runOf b c origin d) ≠ [] ∧
      inBounds (origin.row + d.1 * ((runOf b c origin d).length + 1))
        (origin.col + d.2 * ((runOf b c origin d).length + 1)) ∧
      b (origin.row + d.1 * ((runOf b c origin d).length + 1))
        (origin.col + d.2 * ((runOf b c origin d).length + 1)) = some c
  · rw [if_pos hcond] at hpd
    exact (collectRun_mem b (getOpponent c) d.1 d.2 10
      (origin.row + d.1) (origin.col + d.2) p hpd).2
  · rw [if_neg hcond] at hpd
    simp at hpd

/-- C3: captures run only after an accepted move (never after a placement):
the final board is the flip overlay on the post-move board, with each of
the eight directions resolved independently — a run is flipped exactly when
it is non-empty and bounded beyond by the mover's color — the recorded
`flipped` list is exactly the flipped coordinates, every flipped cell held
the opponent's piece, and no cell outside the flips and the two move cells
changes. -/
theorem capture_resolution_spec (s : NState) (a : Action) (now : String)
    (s' : NState) (h : applyActionCore s a now = .ok s') :
    (a.type = "place" → ∃ t, a.toPos = some t ∧
      s'.board = updCell s.board t.row t.col (some s.turn) ∧
      getField s'.lastMove "flipped" = JVal.arr []) ∧
    (a.type = "move" → ∃ f t, a.fromPos = some f ∧ a.toPos = some t ∧
      s'.board = overlayFlips (movedBoard s.board s.turn f t) s.turn
        (flipsSpec (movedBoard s.board s.turn f t) s.turn t) ∧
      getField s'.lastMove "flipped"
        = JVal.arr ((flipsSpec (movedBoard s.board s.turn f t) s.turn t).map
            (fun p => JVal.arr [.num p.row, .num p.col])) ∧
      (∀ p ∈ flipsSpec (movedBoard s.board s.turn f t) s.turn t,
        movedBoard s.board s.turn f t p.row p.col = some (getOpponent s.turn)) ∧
      (∀ r col : ℤ,
        (⟨r, col⟩ : Coord) ∉ flipsSpec (movedBoard s.board s.turn f t) s.turn t →
        ¬ (r = f.row ∧ col = f.col) → ¬ (r = t.row ∧ col = t.col) →
        s'.board r col = s.board r col)) := by
  obtain ⟨hst, hcol, hbr⟩ := applyActionCore_ok_inv s a now s' h
  constructor
  · intro hty
    rcases hbr with ⟨_, hp⟩ | ⟨hty', _⟩
    · obtain ⟨t, hto, hin, hlt, hempty, hcommit⟩ := placeBranch_ok_inv _ _ _ _ _ hp
      obtain ⟨hb, _, _, _, _, hlm, _⟩ := commitAction_ok_inv _ _ _ _ _ _ _ _ hcommit
      refine ⟨t, hto, ?_, ?_⟩
      · rw [hb, placedSet_board]
      · rw [hlm, mkLastMove_flipped]
        rfl
    · rw [hty] at hty'
      exact absurd hty' (by decide)
  · intro hty
    rcases hbr with ⟨hty', _⟩ | ⟨_, hm⟩
    · rw [hty] at hty'
      exact absurd hty'.symm (by decide)
    · obtain ⟨f, t, hfrom, hto, hfin, htin, hsrc, hdst, hvalid, hcommit⟩ :=
        moveBranch_ok_inv _ _ _ _ _ _ hm
      obtain ⟨hb, _, _, _, _, hlm, _⟩ := commitAction_ok_inv _ _ _ _ _ _ _ _ hcommit
      have hflip := flipSandwiched_spec (movedBoard s.board s.turn f t) s.turn t
      have hb' : s'.board = overlayFlips (movedBoard s.board s.turn f t) s.turn
          (flipsSpec (movedBoard s.board s.turn f t) s.turn t) := by
        rw [hb]
        show (flipSandwiched (movedBoard s.board s.turn f t) s.turn t).1 = _
        rw [hflip]
      refine ⟨f, t, hfrom, hto, hb', ?_, flipsSpec_opponent _ _ _, ?_⟩
      · rw [hlm]
        show getField (mkLastMove "move" s.turn (some f) (some t)
          (flipSandwiched (movedBoard s.board s.turn f t) s.turn t).2 now) "flipped" = _
        rw [hflip, mkLastMove_flipped]
      · intro r col hnf hne hneq
        rw [hb']
        simp only [overlayFlips]
        rw [if_neg hnf]
        simp only [movedBoard, updCell]
        rw [if_neg hneq, if_neg hne]

/-- Witness for C3: black moves `(2,0) → (2,1)`, sandwiching the white
piece at `(2,2)` against black's piece at `(2,3)`; exactly that cell is
flipped and recorded. -/
theorem capture_resolution_spec_witness :
    applyActionCore flipState moveFlip "t"
      = .ok ((applyActionCore flipState moveFlip "t").stateD createWaitingState) ∧
    flipsSpec (movedBoard flipState.board .black ⟨2, 0⟩ ⟨2, 1⟩) .black ⟨2, 1⟩
      = [⟨2, 2⟩] ∧
    getField ((applyActionCore flipState moveFlip "t").stateD
      createWaitingState).lastMove "flipped"
      = JVal.arr [JVal.arr [JVal.num 2, JVal.num 2]] := by
  have h : applyActionCore flipState moveFlip "t"
      = .ok ((applyActionCore flipState moveFlip "t").stateD createWaitingState) := by
    rfl
  refine ⟨h, by decide, ?_⟩
  obtain ⟨-, hmove⟩ := capture_resolution_spec flipState moveFlip "t" _ h
  obtain ⟨f, t, hf, ht, _, hfl, _, _⟩ := hmove rfl
  injection hf with hf'
  injection ht with ht'
  subst hf'
  subst ht'
  rw [hfl]
  rfl

/-- Reading a reference other than the written one sees the old value. -/
theorem updRef_ne {α : Type} (f : ℕ → α) (i j : ℕ) (v : α) (hij : i ≠ j) :
    updRef f j v i = f i := by
  simp [updRef, hij]

/-- The commit tail performs no heap writes. -/
theorem commitHeap_fst (h : Heap) (n : RState) (ty : String) (c : Color)
    (f t : Option Coord) (fl : List Coord) (now : String) :
    (commitHeap h n ty c f t fl now).1 = h := by
  simp only [commitHeap]
  split_ifs <;> rfl

set_option maxHeartbeats 2000000 in
/-- The body writes boards only through the working copy's board
reference. -/
theorem applyActionHeapBody_boards (h1 : Heap) (next : RState) (a : Action)
    (now : String) (r : ℕ) (hr : r ≠ next.boardRef) :
    (applyActionHeapBody h1 next a now).1.boards r = h1.boards r := by
  rcases a with ⟨ty, colr, fp, tp⟩
  rcases tp with _ | t <;> rcases fp with _ | f <;>
    simp only [applyActionHeapBody] <;>
    split_ifs <;>
    simp only [commitHeap_fst] <;>
    simp [updRef, hr]

set_option maxHeartbeats 2000000 in
/-- The body writes placed objects only through the working copy's placed
reference. -/
theorem applyActionHeapBody_placeds (h1 : Heap) (next : RState) (a : Action)
    (now : String) (r : ℕ) (hr : r ≠ next.placedRef) :
    (applyActionHeapBody h1 next a now).1.placeds r = h1.placeds r := by
  rcases a with ⟨ty, colr, fp, tp⟩
  rcases tp with _ | t <;> rcases fp with _ | f <;>
    simp only [applyActionHeapBody] <;>
    split_ifs <;>
    simp only [commitHeap_fst] <;>
    simp [updRef, hr]

/-- C4: `applyAction` never mutates its input state.  In the heap model the
working copy is freshly allocated by `normalizeState`, so every board or
placed-count write lands on the fresh references and the caller's objects
are bit-for-bit unchanged — on both the error and the success paths.  (The
remaining fields of the input record are plain values the function only
reads.) -/
theorem applyActionHeap_preserves_input (h0 : Heap) (s : RState) (a : Action)
    (now : String) (hb : s.boardRef < h0.fresh) (hp : s.placedRef < h0.fresh) :
    (applyActionHeap h0 s a now).1.boards s.boardRef = h0.boards s.boardRef ∧
    (applyActionHeap h0 s a now).1.placeds s.placedRef
      = h0.placeds s.placedRef := by
  have hbne : s.boardRef ≠ h0.fresh := by omega
  have hpne : s.placedRef ≠ h0.fresh + 1 := by omega
  constructor
  · rw [applyActionHeap, applyActionHeapBody_boards _ _ _ _ _ hbne]
    exact updRef_ne _ _ _ _ hbne
  · rw [applyActionHeap, applyActionHeapBody_placeds _ _ _ _ _ hpne]
    exact updRef_ne _ _ _ _ hpne

/-- Witness for C4: a concrete two-object heap and a flip-producing move;
the input's board and placed objects read back unchanged. -/
theorem applyActionHeap_preserves_input_witness :
    rstEx.boardRef < heapEx.fresh ∧ rstEx.placedRef < heapEx.fresh ∧
    ((applyActionHeap heapEx rstEx moveFlip "t").1.boards rstEx.boardRef
        = heapEx.boards rstEx.boardRef ∧
      (applyActionHeap heapEx rstEx moveFlip "t").1.placeds rstEx.placedRef
        = heapEx.placeds rstEx.placedRef) :=
  ⟨by decide, by decide,
    applyActionHeap_preserves_input heapEx rstEx moveFlip "t" (by decide) (by decide)⟩

/-- A fold that ignores its elements is the identity. -/
theorem foldl_skip {α β : Type} : ∀ (l : List α) (b : β),
    l.foldl (fun acc _ => acc) b = b
  | [], _ => rfl
  | _ :: rest, b => foldl_skip rest b

/-- Pointwise-equal fold functions fold equally. -/
theorem foldl_ext {α β : Type} (f g : β → α → β)
    (h : ∀ acc x, f acc x = g acc x) : ∀ (l : List α) (b : β),
    l.foldl f b = l.foldl g b
  | [], _ => rfl
  | x :: rest, b => by
    rw [List.foldl_cons, List.foldl_cons, h]
    exact foldl_ext f g h rest _

/-- Folding over a `flatMap` is the nested fold. -/
theorem foldl_flatMap {α β γ : Type} (g : γ → List α) (f : β → α → β) :
    ∀ (l : List γ) (init : β),
      (l.flatMap g).foldl f init = l.foldl (fun acc x => (g x).foldl f acc) init
  | [], _ => rfl
  | x :: rest, init => by
    rw [List.flatMap_cons, List.foldl_append, List.foldl_cons]
    exact foldl_flatMap g f rest _

/-- A guarded bump-fold computes a count: slot `k` receives one unit for
every element whose guard holds and whose target is `k`. -/
theorem foldl_bump_countP {γ : Type} (P : γ → Prop) [DecidablePred P]
    (tgt : γ → ℕ) (k : ℕ) :
    ∀ (L : List γ) (f : ℕ → ℕ),
      (L.foldl (fun counts x => if P x then bumpCount counts (tgt x) else counts) f) k
        = f k + L.countP (fun x => decide (P x ∧ tgt x = k)) := by
  intro L
  induction L with
  | nil =>
    intro f
    simp
  | cons x rest ih =>
    intro f
    rw [List.foldl_cons, List.countP_cons]
    by_cases hx : P x
    · rw [if_pos hx, ih]
      by_cases hk : tgt x = k
      · rw [if_pos (by simp [hx, hk])]
        simp only [bumpCount, if_pos rfl.symm]
        rw [show (if k = tgt x then f (tgt x) + 1 else f k) = f k + 1 by
          rw [if_pos hk.symm, hk]]
        omega
      · rw [if_neg (by simp [hk])]
        rw [show bumpCount f (tgt x) k = f k by
          simp only [bumpCount]
          rw [if_neg (fun hc => hk hc.symm)]]
        omega
    · rw [if_neg hx, ih, if_neg (by simp [hx])]
      omega

/-- A guarded counting fold computes `countP`. -/
theorem foldl_count_countP {γ : Type} (P : γ → Prop) [DecidablePred P] :
    ∀ (L : List γ) (n : ℕ),
      L.foldl (fun total x => if P x then total + 1 else total) n
        = n + L.countP (fun x => decide (P x)) := by
  intro L
  induction L with
  | nil =>
    intro n
    simp
  | cons x rest ih =>
    intro n
    rw [List.foldl_cons, List.countP_cons]
    by_cases hx : P x
    · rw [if_pos hx, ih, if_pos (by simp [hx])]
      omega
    · rw [if_neg hx, ih, if_neg (by simp [hx])]
      omega

/-- Piece counting is the declarative cell count. -/
theorem countPieces_eq (b : BoardZ) (color : Color) :
    countPieces b color = specPieces b color := by
  have h1 : allCells.foldl
      (fun total p => if b p.1 p.2 = some color then total + 1 else total) 0
      = specPieces b color := by
    rw [foldl_count_countP (fun p => b p.1 p.2 = some color) allCells 0]
    rw [specPieces]
    omega
  rw [← h1, countPieces, allCells, foldl_flatMap]
  apply foldl_ext
  intro acc r
  rw [List.foldl_map]

/-- The line-count fold flattened over all (cell, direction) pairs. -/
theorem lineCounts_flat (b : BoardZ) (color : Color) :
    lineCounts b color = allCellDirs.foldl
      (fun counts pd =>
        if b pd.1.1 pd.1.2 = some color ∧
            ¬ prevSame b color pd.1.1 pd.1.2 pd.2.1 pd.2.2 ∧
            1 ≤ runLen b color pd.2.1 pd.2.2 10 pd.1.1 pd.1.2
        then bumpCount counts (min (runLen b color pd.2.1 pd.2.2 10 pd.1.1 pd.1.2) 5)
        else counts)
      (fun _ => 0) := by
  rw [lineCounts, allCellDirs, foldl_flatMap]
  have h2 : ∀ (acc : ℕ → ℕ) (p : ℤ × ℤ),
      (scanDirs.map (fun d => (p, d))).foldl
        (fun counts pd =>
          if b pd.1.1 pd.1.2 = some color ∧
              ¬ prevSame b color pd.1.1 pd.1.2 pd.2.1 pd.2.2 ∧
              1 ≤ runLen b color pd.2.1 pd.2.2 10 pd.1.1 pd.1.2
          then bumpCount counts (min (runLen b color pd.2.1 pd.2.2 10 pd.1.1 pd.1.2) 5)
          else counts) acc
      = if b p.1 p.2 = some color then
          scanDirs.foldl
            (fun counts d =>
              if prevSame b color p.1 p.2 d.1 d.2 then counts
              else
                if 1 ≤ runLen b color d.1 d.2 10 p.1 p.2 then
                  bumpCount counts (min (runLen b color d.1 d.2 10 p.1 p.2) 5)
                else counts) acc
        else acc := by
    intro acc p
    rw [List.foldl_map]
    by_cases hc : b p.1 p.2 = some color
    · rw [if_pos hc]
      apply foldl_ext
      intro acc' d
      by_cases hp : prevSame b color p.1 p.2 d.1 d.2
      · rw [if_pos hp, if_neg (by simp [hp])]
      · rw [if_neg hp]
        by_cases hl : 1 ≤ runLen b color d.1 d.2 10 p.1 p.2
        · rw [if_pos hl, if_pos ⟨hc, hp, hl⟩]
        · rw [if_neg hl, if_neg (by simp [hl])]
    · rw [if_neg hc]
      have : ∀ (acc' : ℕ → ℕ) (d : ℤ × ℤ),
          (if b (p, d).1.1 (p, d).1.2 = some color ∧
              ¬ prevSame b color (p, d).1.1 (p, d).1.2 (p, d).2.1 (p, d).2.2 ∧
              1 ≤ runLen b color (p, d).2.1 (p, d).2.2 10 (p, d).1.1 (p, d).1.2
          then bumpCount acc' (min (runLen b color (p, d).2.1 (p, d).2.2 10
            (p, d).1.1 (p, d).1.2) 5)
          else acc') = acc' := by
        intro acc' d
        rw [if_neg (by simp [hc])]
      rw [foldl_ext _ (fun acc _ => acc) this, foldl_skip]
  rw [allCells, foldl_flatMap]
  apply foldl_ext
  intro acc r
  rw [List.foldl_map]
  apply foldl_ext
  intro acc' cidx
  rw [h2]

/-- `lineCounts` at slot `k ∈ 1..4` counts exactly the maximal runs of
length `k`. -/
theorem lineCounts_spec (b : BoardZ) (color : Color) (k : ℕ) (h1k : 1 ≤ k)
    (hk4 : k ≤ 4) :
    lineCounts b color k = specRunCount b color k := by
  rw [lineCounts_flat]
  rw [foldl_bump_countP
    (fun pd : (ℤ × ℤ) × (ℤ × ℤ) => b pd.1.1 pd.1.2 = some color ∧
      ¬ prevSame b color pd.1.1 pd.1.2 pd.2.1 pd.2.2 ∧
      1 ≤ runLen b color pd.2.1 pd.2.2 10 pd.1.1 pd.1.2)
    (fun pd => min (runLen b color pd.2.1 pd.2.2 10 pd.1.1 pd.1.2) 5) k]
  rw [specRunCount, Nat.zero_add]
  apply List.countP_congr
  intro pd _
  have hiff : ((b pd.1.1 pd.1.2 = some color ∧
      ¬ prevSame b color pd.1.1 pd.1.2 pd.2.1 pd.2.2 ∧
      1 ≤ runLen b color pd.2.1 pd.2.2 10 pd.1.1 pd.1.2) ∧
      min (runLen b color pd.2.1 pd.2.2 10 pd.1.1 pd.1.2) 5 = k) ↔
      (runStartsAt b color pd ∧
        runLen b color pd.2.1 pd.2.2 10 pd.1.1 pd.1.2 = k) := by
    rw [runStartsAt]
    constructor
    · rintro ⟨⟨ha, hb', hl⟩, hm⟩
      exact ⟨⟨ha, hb'⟩, by omega⟩
    · rintro ⟨⟨ha, hb'⟩, hl⟩
      exact ⟨⟨ha, hb', by omega⟩, by omega⟩
  simp only [decide_eq_true_eq]
  exact hiff

/-- C9: for every non-terminal state the score is the sum of the line
score (maximal runs of lengths 1..4 weighted 10/60/420/8000 for the color
against 10/70/440/8200 for the opponent; runs of length ≥ 5 contribute
nothing), the piece-count difference times 5, and the legal-action-count
difference times 2; a finished state with a truthy winner instead scores
±100000 according to whether the winner is the evaluated color. -/
theorem heuristic_decomposition (s : NState) (c : Color) :
    (isStr s.status "finished" = false →
      evaluateState s c =
        ((specRunCount s.board c 4 : ℤ) * 8000 + (specRunCount s.board c 3 : ℤ) * 420 +
          (specRunCount s.board c 2 : ℤ) * 60 + (specRunCount s.board c 1 : ℤ) * 10 -
          ((specRunCount s.board (getOpponent c) 4 : ℤ) * 8200 +
            (specRunCount s.board (getOpponent c) 3 : ℤ) * 440 +
            (specRunCount s.board (getOpponent c) 2 : ℤ) * 70 +
            (specRunCount s.board (getOpponent c) 1 : ℤ) * 10)) +
        ((specPieces s.board c : ℤ) - (specPieces s.board (getOpponent c) : ℤ)) * 5 +
        (((listActions s c).length : ℤ) -
          ((listActions s (getOpponent c)).length : ℤ)) * 2) ∧
    (isStr s.status "finished" = true → truthy s.winner = true →
      evaluateState s c =
        if isStr s.winner (colorStr c) then 100000 else -100000) := by
  constructor
  · intro hnf
    rw [evaluateState, if_neg (by simp [hnf])]
    rw [heuristicScore]
    rw [lineCounts_spec s.board c 4 (by omega) (by omega),
      lineCounts_spec s.board c 3 (by omega) (by omega),
      lineCounts_spec s.board c 2 (by omega) (by omega),
      lineCounts_spec s.board c 1 (by omega) (by omega),
      lineCounts_spec s.board (getOpponent c) 4 (by omega) (by omega),
      lineCounts_spec s.board (getOpponent c) 3 (by omega) (by omega),
      lineCounts_spec s.board (getOpponent c) 2 (by omega) (by omega),
      lineCounts_spec s.board (getOpponent c) 1 (by omega) (by omega),
      countPieces_eq s.board c, countPieces_eq s.board (getOpponent c)]
  · intro hf hw
    rw [evaluateState, if_pos (by simp [hf])]
    by_cases hwc : isStr s.winner (colorStr c) = true
    · rw [if_pos (by simp [hwc]), if_pos hwc]
    · rw [if_neg (by simp [hwc]), if_pos (by simp [hw]), if_neg (by simp [hwc])]

/-- Witness for C9: the decomposition instantiated on the concrete capture
position (a non-terminal state). -/
theorem heuristic_decomposition_witness :
    isStr flipState.status "finished" = false ∧
    evaluateState flipState .black =
      ((specRunCount flipState.board .black 4 : ℤ) * 8000 +
        (specRunCount flipState.board .black 3 : ℤ) * 420 +
        (specRunCount flipState.board .black 2 : ℤ) * 60 +
        (specRunCount flipState.board .black 1 : ℤ) * 10 -
        ((specRunCount flipState.board (getOpponent .black) 4 : ℤ) * 8200 +
          (specRunCount flipState.board (getOpponent .black) 3 : ℤ) * 440 +
          (specRunCount flipState.board (getOpponent .black) 2 : ℤ) * 70 +
          (specRunCount flipState.board (getOpponent .black) 1 : ℤ) * 10)) +
      ((specPieces flipState.board .black : ℤ) -
        (specPieces flipState.board (getOpponent .black) : ℤ)) * 5 +
      (((listActions flipState .black).length : ℤ) -
        ((listActions flipState (getOpponent .black)).length : ℤ)) * 2 :=
  ⟨by decide, (heuristic_decomposition flipState .black).1 (by decide)⟩

/-- `<` on search values is irreflexive. -/
theorem SVal.lt_irrefl (a : SVal) : SVal.lt a a = false := by
  cases a <;> simp [SVal.lt]

/-- `≤` on search values is reflexive. -/
theorem SVal.le_refl (a : SVal) : SVal.le a a = true := by
  simp [SVal.le, SVal.lt_irrefl]

/-- `<` on search values is asymmetric. -/
theorem SVal.lt_asymm' {a b : SVal} (h : SVal.lt a b = true) : SVal.lt b a = false := by
  cases a <;> cases b <;> simp_all [SVal.lt] <;> omega

/-- `≤` on search values is transitive. -/
theorem SVal.le_trans' {a b c : SVal} (h1 : SVal.le a b = true)
    (h2 : SVal.le b c = true) : SVal.le a c = true := by
  cases a <;> cases b <;> cases c <;> simp_all [SVal.le, SVal.lt] <;> omega

/-- Strict comparison implies non-strict comparison. -/
theorem SVal.lt_le {a b : SVal} (h : SVal.lt a b = true) : SVal.le a b = true := by
  simp [SVal.le, SVal.lt_asymm' h]

/-- A failed strict comparison is the reverse non-strict comparison. -/
theorem SVal.not_lt_le {a b : SVal} (h : SVal.lt a b = false) :
    SVal.le b a = true := by
  simp [SVal.le, h]

/-- `+Infinity` is below no value other than itself. -/
theorem SVal.le_posInf_ne {b : SVal} (h : b ≠ .posInf) :
    SVal.le .posInf b = false := by
  cases b <;> simp_all [SVal.le, SVal.lt]

/-- `≤` between finite values is integer `≤`. -/
theorem SVal.le_fin_fin {x y : ℤ} : SVal.le (.fin x) (.fin y) = true ↔ x ≤ y := by
  simp [SVal.le, SVal.lt]

/-- No finite value is below `-Infinity`. -/
theorem SVal.fin_le_negInf {x : ℤ} : SVal.le (.fin x) .negInf = false := by
  simp [SVal.le, SVal.lt]

/-- `Math.max` of a value with itself. -/
theorem SVal.smax_self (a : SVal) : SVal.smax a a = a := by
  simp [SVal.smax, SVal.lt_irrefl]

/-- With a clock that never expires, a depth-`0` evaluation is exactly the
heuristic of the current state, with no timeout, no action, an unchanged
table and one tick consumed. -/
theorem evalAtDepth_zero (clock : ℕ → Bool) (hclk : ∀ n, clock n = false)
    (c : Color) (now : String) (st : NState) (α β : SVal) (t : Table) (tk : ℕ) :
    evalAtDepth clock c now 0 st α β t tk =
      ⟨.fin (evaluateState st c), false, none, t, tk + 1⟩ := by
  simp [evalAtDepth, hclk]


/-- Root action loop at depth `1` with a maximizing player, no timeouts, and
`alpha` equal to the running best: it terminates in `done`, the best score
never decreases, dominates the heuristic value of every applicable action in
the list, and the best action is either untouched or an applicable listed
action achieving the best score. -/
theorem evalLoopRoot1 (clock : ℕ → Bool) (hclk : ∀ n, clock n = false)
    (c : Color) (now : String) (current : NState) :
    ∀ (acts : List Action) (bs : SVal) (ba : Option Action) (t : Table) (tk : ℕ),
      ((bs = .negInf ∧ ba = none) ∨
        (∃ a st, ba = some a ∧ applyActionCore current a now = .ok st ∧
          bs = .fin (evaluateState st c))) →
      ∃ bs' ba' t' tk',
        evalLoop (evalAtDepth clock c now 0) current now true acts bs ba bs .posInf
          t tk = .done bs' ba' t' tk' ∧
        SVal.le bs bs' = true ∧
        (∀ a ∈ acts, ∀ st, applyActionCore current a now = .ok st →
          SVal.le (.fin (evaluateState st c)) bs' = true) ∧
        ((bs' = bs ∧ ba' = ba) ∨
          (∃ a st, a ∈ acts ∧ ba' = some a ∧ applyActionCore current a now = .ok st ∧
            bs' = .fin (evaluateState st c))) := by
  intro acts
  induction acts with
  | nil =>
    intro bs ba t tk _
    exact ⟨bs, ba, t, tk, rfl, SVal.le_refl bs, by simp, Or.inl ⟨rfl, rfl⟩⟩
  | cons action rest ih =>
    intro bs ba t tk hin
    have hbsne : bs ≠ .posInf := by
      rcases hin with ⟨h1, _⟩ | ⟨a, st, _, _, h1⟩ <;> simp [h1]
    simp only [evalLoop]
    cases happ : applyActionCore current action now with
    | err e =>
      obtain ⟨bs1, ba1, t1, tk1, heq, hle, hall, hdisj⟩ := ih bs ba t tk hin
      refine ⟨bs1, ba1, t1, tk1, heq, hle, ?_, ?_⟩
      · intro a ha st hst
        rcases List.mem_cons.mp ha with rfl | ha2
        · rw [happ] at hst
          exact absurd hst (by simp)
        · exact hall a ha2 st hst
      · rcases hdisj with h | ⟨a, st, ha, h2, h3, h4⟩
        · exact Or.inl h
        · exact Or.inr ⟨a, st, List.mem_cons_of_mem _ ha, h2, h3, h4⟩
    | ok next =>
      simp only [evalAtDepth_zero clock hclk c now, Bool.false_eq_true, if_false,
        if_true]
      cases hlt : SVal.lt bs (SVal.fin (evaluateState next c)) with
      | true =>
        have hcut : SVal.le .posInf (SVal.fin (evaluateState next c)) = false :=
          SVal.le_posInf_ne (by simp)
        obtain ⟨bs1, ba1, t1, tk1, heq, hle, hall, hdisj⟩ :=
          ih (.fin (evaluateState next c)) (some action) t (tk + 1)
            (Or.inr ⟨action, next, rfl, happ, rfl⟩)
        refine ⟨bs1, ba1, t1, tk1, ?_, ?_, ?_, ?_⟩
        · simp only [hlt, if_true, SVal.smax, hcut, if_false, Bool.false_eq_true]
          exact heq
        · exact SVal.le_trans' (SVal.lt_le hlt) hle
        · intro a ha st hst
          rcases List.mem_cons.mp ha with rfl | ha2
          · rw [happ] at hst
            injection hst with h
            subst h
            exact hle
          · exact hall a ha2 st hst
        · rcases hdisj with ⟨h1, h2⟩ | ⟨a, st, ha, h2, h3, h4⟩
          · exact Or.inr ⟨action, next, List.mem_cons_self _ _, h2, happ, h1⟩
          · exact Or.inr ⟨a, st, List.mem_cons_of_mem _ ha, h2, h3, h4⟩
      | false =>
        have hcut : SVal.le .posInf bs = false := SVal.le_posInf_ne hbsne
        obtain ⟨bs1, ba1, t1, tk1, heq, hle, hall, hdisj⟩ := ih bs ba t (tk + 1) hin
        refine ⟨bs1, ba1, t1, tk1, ?_, hle, ?_, ?_⟩
        · simp only [hlt, Bool.false_eq_true, if_false, SVal.smax_self, hcut]
          exact heq
        · intro a ha st hst
          rcases List.mem_cons.mp ha with rfl | ha2
          · rw [happ] at hst
            injection hst with h
            subst h
            exact SVal.le_trans' (SVal.not_lt_le hlt) hle
          · exact hall a ha2 st hst
        · rcases hdisj with h | ⟨a, st, ha, h2, h3, h4⟩
          · exact Or.inl h
          · exact Or.inr ⟨a, st, List.mem_cons_of_mem _ ha, h2, h3, h4⟩


/-- Unfolding a positive-depth evaluation under no timeout, an unfinished
status, and a table miss: it runs the node body. -/
theorem evalAtDepth_succ_fresh (clock : ℕ → Bool) (c : Color) (now : String)
    (d : ℕ) (st : NState) (α β : SVal) (t : Table) (tk : ℕ)
    (hck : clock tk = false) (hfin : isStr st.status "finished" = false)
    (hmiss : lookupT t (serializeState st, d + 1) = none) :
    evalAtDepth clock c now (d + 1) st α β t tk =
      nodeSearch (evalAtDepth clock c now d) c now d st α β t (tk + 1)
        (serializeState st, d + 1) := by
  simp only [evalAtDepth, hck, Bool.false_eq_true, if_false, hfin, hmiss]

/-- Unfolding one iteration of the deepening loop. -/
theorem deepen_succ (clock : ℕ → Bool) (c : Color) (now : String) (s : NState)
    (r depth : ℕ) (t : Table) (tk : ℕ) (best : Option Action) :
    deepen clock c now s (r + 1) depth t tk best =
      (let res := evalAtDepth clock c now depth s .negInf .posInf t tk
       if res.timedOut then best
       else deepen clock c now s r (depth + 1) res.table res.tick
         (match res.bestAction with | some a => some a | none => best)) := rfl

/-- The deepening loop with no remaining iterations reports the action
recorded so far. -/
theorem deepen_zero (clock : ℕ → Bool) (c : Color) (now : String) (s : NState)
    (depth : ℕ) (t : Table) (tk : ℕ) (best : Option Action) :
    deepen clock c now s 0 depth t tk best = best := rfl

/-- `searchBestMove` with `maxDepth = 1` runs one deepening iteration and
falls back to the first enumerated action. -/
theorem searchBestMove_one (clock : ℕ → Bool) (s : NState) (c : Color)
    (now : String) :
    searchBestMove clock s c 1 now =
      (match deepen clock c now s 1 1 [] 0 none with
        | some best => some best
        | none => (listActions s c).head?) := rfl


/-- C8 (amended): with a deadline that is never exceeded, a playing state
whose turn player is the searching color, and `maxDepth = 1`, the search
either returns `none` with no action enumerated, or returns an enumerated
action whose successor state's evaluation from the searching color's
perspective is at least that of any other applicable enumerated action. -/
theorem search_depth1_greedy_for_turn_color (clock : ℕ → Bool)
    (hclk : ∀ n, clock n = false) (s : NState) (c : Color) (now : String)
    (hst : s.status = JVal.str "playing") (hturn : s.turn = c) :
    (listActions s c = [] ∧ searchBestMove clock s c 1 now = none) ∨
    (∃ a, searchBestMove clock s c 1 now = some a ∧ a ∈ listActions s c ∧
      ∀ a' ∈ listActions s c, ∀ st' st, applyActionCore s a' now = .ok st' →
        applyActionCore s a now = .ok st →
        evaluateState st' c ≤ evaluateState st c) := by
  have hfin : isStr s.status "finished" = false := by rw [hst]; rfl
  have h1 : evalAtDepth clock c now 1 s .negInf .posInf [] 0 =
      nodeSearch (evalAtDepth clock c now 0) c now 0 s .negInf .posInf [] 1
        (serializeState s, 1) :=
    evalAtDepth_succ_fresh clock c now 0 s .negInf .posInf [] 0 (hclk 0) hfin rfl
  by_cases hacts : listActions s s.turn = []
  · have hactsC : listActions s c = [] := by rw [← hturn]; exact hacts
    have h2 : nodeSearch (evalAtDepth clock c now 0) c now 0 s .negInf .posInf [] 1
        (serializeState s, 1) = ⟨.fin (evaluateState s c), false, none, [], 1⟩ := by
      simp [nodeSearch, hacts]
    have h3 : searchBestMove clock s c 1 now = (listActions s c).head? := by
      rw [searchBestMove_one, deepen_succ, h1, h2]
      rfl
    exact Or.inl ⟨hactsC, by rw [h3, hactsC]; rfl⟩
  · have hactsC : ¬ listActions s c = [] := by rw [← hturn]; exact hacts
    have hmax : decide (s.turn = c) = true := by simp [hturn]
    obtain ⟨bs1, ba1, t1, tk1, heq, hle, hall, hdisj⟩ :=
      evalLoopRoot1 clock hclk c now s (listActions s s.turn) .negInf none [] 1
        (Or.inl ⟨rfl, rfl⟩)
    have h2 : nodeSearch (evalAtDepth clock c now 0) c now 0 s .negInf .posInf [] 1
        (serializeState s, 1) =
        ⟨bs1, false, ba1, insertT t1 (serializeState s, 1) ⟨bs1, 1, ba1⟩, tk1⟩ := by
      simp only [nodeSearch]
      rw [if_neg hacts]
      simp only [hmax, if_true, heq]
    rw [hturn] at hall
    rcases hdisj with ⟨hbs, hba⟩ | ⟨a, st, hmem, hsome, happa, hbs⟩
    · have hres : searchBestMove clock s c 1 now = (listActions s c).head? := by
        rw [searchBestMove_one, deepen_succ, h1]
        simp [h2, hba, deepen_zero]
      obtain ⟨a0, tl, hL⟩ : ∃ a0 tl, listActions s c = a0 :: tl := by
        cases hE : listActions s c with
        | nil => exact absurd hE hactsC
        | cons x xs => exact ⟨x, xs, rfl⟩
      refine Or.inr ⟨a0, ?_, ?_, ?_⟩
      · rw [hres, hL]
        rfl
      · rw [hL]
        exact List.mem_cons_self _ _
      · intro a' ha' st' st happ' happ
        have h4 := hall a' ha' st' happ'
        rw [hbs] at h4
        simp [SVal.fin_le_negInf] at h4
    · rw [hturn] at hmem
      have hres : searchBestMove clock s c 1 now = some a := by
        rw [searchBestMove_one, deepen_succ, h1]
        simp [h2, hsome, deepen_zero]
      refine Or.inr ⟨a, hres, hmem, ?_⟩
      · intro a' ha' st' st2 happ' happ2
        have h4 := hall a' ha' st' happ'
        rw [hbs] at h4
        rw [happa] at happ2
        injection happ2 with h5
        subst h5
        exact SVal.le_fin_fin.mp h4


/-- Key bounds are monotone. -/
theorem keysLE_mono {t : Table} {n m : ℕ} (h : keysLE t n) (hnm : n ≤ m) :
    keysLE t m := fun p hp => le_trans (h p hp) hnm

/-- The action loop keeps any key bound of the input table, provided the
child evaluator does. -/
theorem evalLoop_keysLE (childEval : NState → SVal → SVal → Table → ℕ → EvalRes)
    (current : NState) (now : String) (maximizing : Bool) (n : ℕ)
    (hch : ∀ st α β t tk, keysLE t n → keysLE (childEval st α β t tk).table n) :
    ∀ (acts : List Action) (bs : SVal) (ba : Option Action) (α β : SVal)
      (t : Table) (tk : ℕ) (res : LoopRes),
      evalLoop childEval current now maximizing acts bs ba α β t tk = res →
      keysLE t n → keysLE res.table n := by
  intro acts
  induction acts with
  | nil =>
    intro bs ba α β t tk res h ht
    subst h
    exact ht
  | cons action rest ih =>
    intro bs ba α β t tk res h ht
    subst h
    simp only [evalLoop]
    split
    · exact ih _ _ _ _ _ _ _ rfl ht
    · rename_i next happ
      have hct : keysLE (childEval next α β t tk).table n := hch next α β t tk ht
      split
      · exact hct
      · split <;> split <;> split <;>
          first
          | exact hct
          | exact ih _ _ _ _ _ _ _ rfl hct

/-- The node body keeps a key bound at least as large as the depth component
of the key it stores. -/
theorem nodeSearch_keysLE (childEval : NState → SVal → SVal → Table → ℕ → EvalRes)
    (c : Color) (now : String) (d : ℕ) (current : NState) (α β : SVal)
    (t : Table) (tk : ℕ) (key : String × ℕ) (n : ℕ)
    (hch : ∀ st α2 β2 t2 tk2, keysLE t2 n → keysLE (childEval st α2 β2 t2 tk2).table n)
    (ht : keysLE t n) (hkey : key.2 ≤ n) :
    keysLE (nodeSearch childEval c now d current α β t tk key).table n := by
  simp only [nodeSearch]
  split
  · exact ht
  · split
    · rename_i t2 tk2 heq
      exact evalLoop_keysLE childEval current now _ n hch _ _ _ _ _ _ _ _ heq ht
    · rename_i bs2 ba2 t2 tk2 heq
      have hl : keysLE t2 n :=
        evalLoop_keysLE childEval current now _ n hch _ _ _ _ _ _ _ _ heq ht
      intro p hp
      rcases List.mem_cons.mp hp with hp1 | hp2
      · rw [hp1]
        exact hkey
      · exact hl p hp2


/-- Depth-`d` evaluation keeps any key bound at least `d`. -/
theorem evalAtDepth_keysLE (clock : ℕ → Bool) (c : Color) (now : String) :
    ∀ (d n : ℕ), d ≤ n → ∀ (st : NState) (α β : SVal) (t : Table) (tk : ℕ),
      keysLE t n → keysLE (evalAtDepth clock c now d st α β t tk).table n := by
  intro d
  induction d with
  | zero =>
    intro n _ st α β t tk ht
    simp only [evalAtDepth]
    split <;> exact ht
  | succ d ih =>
    intro n hdn st α β t tk ht
    simp only [evalAtDepth]
    split
    · exact ht
    · split
      · exact ht
      · split
        · split
          · exact ht
          · exact nodeSearch_keysLE _ c now d st α β t (tk + 1) _ n
              (fun st2 α2 β2 t2 tk2 ht2 =>
                ih n (Nat.le_of_succ_le hdn) st2 α2 β2 t2 tk2 ht2) ht hdn
        · exact nodeSearch_keysLE _ c now d st α β t (tk + 1) _ n
            (fun st2 α2 β2 t2 tk2 ht2 =>
              ih n (Nat.le_of_succ_le hdn) st2 α2 β2 t2 tk2 ht2) ht hdn

/-- A lookup at a depth above the key bound of the table misses. -/
theorem lookupT_none_of_keysLE {t : Table} {n : ℕ} (ht : keysLE t n)
    {sKey : String} {d : ℕ} (hd : n < d) : lookupT t (sKey, d) = none := by
  have hf : t.find? (fun p => p.1 == (sKey, d)) = none := by
    rw [List.find?_eq_none]
    intro p hp
    have hle := ht p hp
    simp only [beq_iff_eq]
    intro hEq
    rw [hEq] at hle
    omega
  simp [lookupT, hf]


/-- On normal exit, the loop's best action is the incoming one or one of the
looped actions. -/
theorem evalLoop_bestAction (childEval : NState → SVal → SVal → Table → ℕ → EvalRes)
    (current : NState) (now : String) (maximizing : Bool) :
    ∀ (acts : List Action) (bs : SVal) (ba : Option Action) (α β : SVal)
      (t : Table) (tk : ℕ) (bs2 : SVal) (ba2 : Option Action) (t2 : Table) (tk2 : ℕ),
      evalLoop childEval current now maximizing acts bs ba α β t tk =
        .done bs2 ba2 t2 tk2 →
      ba2 = ba ∨ ∃ a ∈ acts, ba2 = some a := by
  intro acts
  induction acts with
  | nil =>
    intro bs ba α β t tk bs2 ba2 t2 tk2 h
    simp only [evalLoop] at h
    injection h with h1 h2 h3 h4
    exact Or.inl h2.symm
  | cons action rest ih =>
    intro bs ba α β t tk bs2 ba2 t2 tk2 h
    simp only [evalLoop] at h
    split at h
    · rcases ih _ _ _ _ _ _ _ _ _ _ h with h1 | ⟨a, ha, h2⟩
      · exact Or.inl h1
      · exact Or.inr ⟨a, List.mem_cons_of_mem _ ha, h2⟩
    · split at h
      · exact absurd h (by simp)
      · split at h
        · split at h
          · split at h
            · injection h with h1 h2 h3 h4
              exact Or.inr ⟨action, List.mem_cons_self _ _, h2.symm⟩
            · rcases ih _ _ _ _ _ _ _ _ _ _ h with h1 | ⟨a, ha, h2⟩
              · exact Or.inr ⟨action, List.mem_cons_self _ _, h1⟩
              · exact Or.inr ⟨a, List.mem_cons_of_mem _ ha, h2⟩
          · split at h
            · injection h with h1 h2 h3 h4
              exact Or.inl h2.symm
            · rcases ih _ _ _ _ _ _ _ _ _ _ h with h1 | ⟨a, ha, h2⟩
              · exact Or.inl h1
              · exact Or.inr ⟨a, List.mem_cons_of_mem _ ha, h2⟩
        · split at h
          · split at h
            · injection h with h1 h2 h3 h4
              exact Or.inr ⟨action, List.mem_cons_self _ _, h2.symm⟩
            · rcases ih _ _ _ _ _ _ _ _ _ _ h with h1 | ⟨a, ha, h2⟩
              · exact Or.inr ⟨action, List.mem_cons_self _ _, h1⟩
              · exact Or.inr ⟨a, List.mem_cons_of_mem _ ha, h2⟩
          · split at h
            · injection h with h1 h2 h3 h4
              exact Or.inl h2.symm
            · rcases ih _ _ _ _ _ _ _ _ _ _ h with h1 | ⟨a, ha, h2⟩
              · exact Or.inl h1
              · exact Or.inr ⟨a, List.mem_cons_of_mem _ ha, h2⟩


/-- The node body reports no best action or one of the actions enumerated
for the turn player of the node's state. -/
theorem nodeSearch_bestAction (childEval : NState → SVal → SVal → Table → ℕ → EvalRes)
    (c : Color) (now : String) (d : ℕ) (current : NState) (α β : SVal)
    (t : Table) (tk : ℕ) (key : String × ℕ) :
    (nodeSearch childEval c now d current α β t tk key).bestAction = none ∨
      ∃ a ∈ listActions current current.turn,
        (nodeSearch childEval c now d current α β t tk key).bestAction = some a := by
  simp only [nodeSearch]
  split
  · exact Or.inl rfl
  · split
    · exact Or.inl rfl
    · rename_i bs2 ba2 t2 tk2 heq
      rcases evalLoop_bestAction childEval current now _ _ _ _ _ _ _ _ _ _ _ _ heq with
        h1 | ⟨a, ha, h2⟩
      · exact Or.inl h1
      · exact Or.inr ⟨a, ha, h2⟩

/-- A root evaluation at depth `d + 1` over a table whose keys are bounded
by `d` (so the root itself never hits the cache): the output table is
bounded by `d + 1` and the reported action, if any, is enumerated for the
turn player. -/
theorem evalAtDepth_root_props (clock : ℕ → Bool) (c : Color) (now : String)
    (d : ℕ) (s : NState) (α β : SVal) (t : Table) (tk : ℕ) (ht : keysLE t d) :
    keysLE (evalAtDepth clock c now (d + 1) s α β t tk).table (d + 1) ∧
    ((evalAtDepth clock c now (d + 1) s α β t tk).bestAction = none ∨
      ∃ a ∈ listActions s s.turn,
        (evalAtDepth clock c now (d + 1) s α β t tk).bestAction = some a) := by
  have hmiss : lookupT t (serializeState s, d + 1) = none :=
    lookupT_none_of_keysLE ht (by omega)
  have htw : keysLE t (d + 1) := keysLE_mono ht (by omega)
  simp only [evalAtDepth]
  split
  · exact ⟨htw, Or.inl rfl⟩
  · split
    · exact ⟨htw, Or.inl rfl⟩
    · rw [hmiss]
      exact ⟨nodeSearch_keysLE _ c now d s α β t (tk + 1) _ (d + 1)
          (fun st2 α2 β2 t2 tk2 ht2 =>
            evalAtDepth_keysLE clock c now d (d + 1) (by omega) st2 α2 β2 t2 tk2 ht2)
          htw (le_refl _),
        nodeSearch_bestAction _ c now d s α β t (tk + 1) _⟩


/-- Through the deepening loop, the recorded action stays `none` or an
action enumerated for the turn player, and so does the final answer. -/
theorem deepen_bestAction (clock : ℕ → Bool) (c : Color) (now : String)
    (s : NState) :
    ∀ (r depth : ℕ) (t : Table) (tk : ℕ) (best : Option Action),
      1 ≤ depth → keysLE t (depth - 1) →
      (best = none ∨ ∃ a ∈ listActions s s.turn, best = some a) →
      (deepen clock c now s r depth t tk best = none ∨
        ∃ a ∈ listActions s s.turn,
          deepen clock c now s r depth t tk best = some a) := by
  intro r
  induction r with
  | zero =>
    intro depth t tk best _ _ hbest
    exact hbest
  | succ r ih =>
    intro depth t tk best hdep ht hbest
    obtain ⟨d, rfl⟩ : ∃ d, depth = d + 1 := ⟨depth - 1, by omega⟩
    have ht2 : keysLE t d := by simpa using ht
    obtain ⟨htab, hba⟩ :=
      evalAtDepth_root_props clock c now d s .negInf .posInf t tk ht2
    rw [deepen_succ]
    by_cases hto :
      (evalAtDepth clock c now (d + 1) s .negInf .posInf t tk).timedOut = true
    · simp only [hto, if_true]
      exact hbest
    · rw [Bool.not_eq_true] at hto
      simp only [hto, Bool.false_eq_true, if_false]
      apply ih (d + 1 + 1) _ _ _ (by omega) (by simpa using htab)
      rcases hba with h1 | ⟨a, ha, h2⟩
      · rw [h1]
        exact hbest
      · rw [h2]
        exact Or.inr ⟨a, ha, rfl⟩


/-- C7 (amended): when the turn player of the searched state is the
searching color, `searchBestMove` returns `none` exactly when the action
enumerator yields nothing for that color, any returned action is one the
enumerator yields for that color, and when the deepening loop selects no
action the result is exactly the first enumerated action. -/
theorem search_returns_enumerated_action (clock : ℕ → Bool) (s : NState)
    (c : Color) (optMaxDepth : ℕ) (now : String) (hturn : s.turn = c) :
    (searchBestMove clock s c optMaxDepth now = none ↔ listActions s c = []) ∧
    (∀ a, searchBestMove clock s c optMaxDepth now = some a →
      a ∈ listActions s c) ∧
    (deepen clock c now s (if optMaxDepth = 0 then 4 else optMaxDepth) 1 [] 0 none =
        none →
      searchBestMove clock s c optMaxDepth now = (listActions s c).head?) := by
  have hd := deepen_bestAction clock c now s
    (if optMaxDepth = 0 then 4 else optMaxDepth) 1 [] 0 none (le_refl 1)
    (fun p hp => absurd hp (List.not_mem_nil p)) (Or.inl rfl)
  rw [hturn] at hd
  have hs : searchBestMove clock s c optMaxDepth now =
      (match deepen clock c now s (if optMaxDepth = 0 then 4 else optMaxDepth)
          1 [] 0 none with
        | some best => some best
        | none => (listActions s c).head?) := rfl
  rcases hd with hnone | ⟨a, ha, hsome⟩
  · have hs2 : searchBestMove clock s c optMaxDepth now = (listActions s c).head? := by
      rw [hs, hnone]
    refine ⟨?_, ?_, fun _ => hs2⟩
    · rw [hs2]
      exact List.head?_eq_none_iff
    · intro a2 hsa
      rw [hs2] at hsa
      cases hL : listActions s c with
      | nil =>
        rw [hL] at hsa
        exact absurd hsa (by simp)
      | cons x xs =>
        rw [hL] at hsa
        simp only [List.head?_cons, Option.some_inj] at hsa
        rw [← hsa]
        exact List.mem_cons_self _ _
  · have hs2 : searchBestMove clock s c optMaxDepth now = some a := by
      rw [hs, hsome]
    refine ⟨?_, ?_, ?_⟩
    · rw [hs2]
      constructor
      · intro h
        exact absurd h (by simp)
      · intro hL
        rw [hL] at ha
        exact absurd ha (List.not_mem_nil a)
    · intro a2 hsa
      rw [hs2] at hsa
      injection hsa with h
      rw [← h]
      exact ha
    · intro hdn
      rw [hdn] at hsome
      exact absurd hsome (by simp)


/-- C7 is refuted as stated: in `cornerState` (black to move, both budgets
spent) the enumerator yields no action at all for white, yet searching for
white returns a black move - an action that is not legal for the searching
color, returned although the enumerator yielded nothing. -/
theorem search_action_not_for_searched_color_counterexample :
    listActions cornerState .white = [] ∧
    searchBestMove clk0 cornerState .white 1 "t" =
      some ⟨"move", "black", some ⟨0, 0⟩, some ⟨1, 1⟩⟩ ∧
    (⟨"move", "black", some ⟨0, 0⟩, some ⟨1, 1⟩⟩ : Action) ∉
      listActions cornerState .white := by
  decide

/-- Witness for C7: the amended theorem instantiated at `cornerState` with
the searching color equal to the turn player. -/
theorem search_returns_enumerated_action_witness :
    cornerState.turn = Color.black ∧
    ((searchBestMove clk0 cornerState .black 1 "t" = none ↔
        listActions cornerState .black = []) ∧
      (∀ a, searchBestMove clk0 cornerState .black 1 "t" = some a →
        a ∈ listActions cornerState .black) ∧
      (deepen clk0 .black "t" cornerState (if (1 : ℕ) = 0 then 4 else 1) 1 [] 0
          none = none →
        searchBestMove clk0 cornerState .black 1 "t" =
          (listActions cornerState .black).head?)) :=
  ⟨rfl, search_returns_enumerated_action clk0 cornerState .black 1 "t" rfl⟩

/-- C8 is refuted as stated: searching for white at depth 1 in
`cornerState` (where it is black's turn) returns the black move to `(1,1)`,
although the applicable black move to `(1,0)` leads to a strictly better
state from white's perspective - the root minimizes over the turn player's
actions instead of maximizing over the searching color's actions. -/
theorem search_depth1_not_greedy_counterexample :
    cornerState.turn = Color.black ∧
    searchBestMove clk0 cornerState .white 1 "t" =
      some ⟨"move", "black", some ⟨0, 0⟩, some ⟨1, 1⟩⟩ ∧
    (⟨"move", "black", some ⟨0, 0⟩, some ⟨1, 0⟩⟩ : Action) ∈
      listActions cornerState .black ∧
    (⟨"move", "black", some ⟨0, 0⟩, some ⟨1, 1⟩⟩ : Action) ∈
      listActions cornerState .black ∧
    (applyActionCore cornerState ⟨"move", "black", some ⟨0, 0⟩, some ⟨1, 0⟩⟩
        "t").isOk = true ∧
    (applyActionCore cornerState ⟨"move", "black", some ⟨0, 0⟩, some ⟨1, 1⟩⟩
        "t").isOk = true ∧
    evaluateState
        ((applyActionCore cornerState ⟨"move", "black", some ⟨0, 0⟩, some ⟨1, 1⟩⟩
            "t").stateD cornerState) .white <
      evaluateState
        ((applyActionCore cornerState ⟨"move", "black", some ⟨0, 0⟩, some ⟨1, 0⟩⟩
            "t").stateD cornerState) .white := by
  decide

/-- Witness for C8: the amended theorem instantiated at `cornerState` with
the searching color equal to the turn player. -/
theorem search_depth1_greedy_for_turn_color_witness :
    cornerState.status = JVal.str "playing" ∧ cornerState.turn = Color.black ∧
    ((listActions cornerState .black = [] ∧
        searchBestMove clk0 cornerState .black 1 "t" = none) ∨
      (∃ a, searchBestMove clk0 cornerState .black 1 "t" = some a ∧
        a ∈ listActions cornerState .black ∧
        ∀ a2 ∈ listActions cornerState .black, ∀ st2 st,
          applyActionCore cornerState a2 "t" = .ok st2 →
          applyActionCore cornerState a "t" = .ok st →
          evaluateState st2 .black ≤ evaluateState st .black)) :=
  ⟨rfl, rfl, search_depth1_greedy_for_turn_color clk0 (fun _ => rfl) cornerState
    .black "t" rfl rfl⟩

end Yon
